import Mathlib

/-!
Verification of the talent-map-ai text-anonymization core.

The repository's PII pipeline (app/mapper/privacy_aware_anonymizer.py,
app/mapper/text_normalizer.py, app/mapper/normalizer_presets.py,
app/mapper/privacy_aware_normalizer.py) is shallowly embedded here.
Text is modelled as `List Char`; each Python regex substitution is
embedded as an executable Lean function implementing the same
leftmost, greedy-with-backtracking, non-overlapping `re.sub`
semantics for that concrete pattern.

Modelling notes, valid for the whole file:
* Case folding (`str.lower`, `re.IGNORECASE`) is modelled on ASCII
  letters only; the embedded inputs exercise no non-ASCII case pairs.
* Python's `\w` matches Unicode word characters; it is modelled as
  ASCII alphanumeric, underscore, or any non-ASCII character (every
  non-ASCII character appearing in the modelled corpus is a letter).
* Python's `\s` and `str.strip` are modelled on the ASCII whitespace
  characters space, tab, newline, carriage return, vertical tab and
  form feed.
-/

namespace TalentMap

abbrev Text := List Char

def str (s : String) : Text := s.data

/-- Whitespace as matched by Python's regex class backslash-s and stripped
by str.strip (ASCII part). -/
def isWsC (c : Char) : Bool :=
  c = ' ' || c = '\t' || c = '\n' || c = '\r' || c = Char.ofNat 11 || c = Char.ofNat 12

/-- Word characters for Python's regex class backslash-w: ASCII alphanumerics,
underscore, and (as an approximation of Unicode word characters) any
non-ASCII character. -/
def isWordC (c : Char) : Bool :=
  c.isAlphanum || c = '_' || decide (128 ≤ c.toNat)

def isDigitC (c : Char) : Bool := c.isDigit

def isAlphaC (c : Char) : Bool := c.isAlpha

def isUpperC (c : Char) : Bool := c.isUpper

/-- ASCII lowercasing (model of Python str.lower / re.IGNORECASE case
folding on the ASCII range), written as explicit cases. -/
def toLowerC (c : Char) : Char :=
  if c = 'A' then 'a' else if c = 'B' then 'b' else if c = 'C' then 'c'
  else if c = 'D' then 'd' else if c = 'E' then 'e' else if c = 'F' then 'f'
  else if c = 'G' then 'g' else if c = 'H' then 'h' else if c = 'I' then 'i'
  else if c = 'J' then 'j' else if c = 'K' then 'k' else if c = 'L' then 'l'
  else if c = 'M' then 'm' else if c = 'N' then 'n' else if c = 'O' then 'o'
  else if c = 'P' then 'p' else if c = 'Q' then 'q' else if c = 'R' then 'r'
  else if c = 'S' then 's' else if c = 'T' then 't' else if c = 'U' then 'u'
  else if c = 'V' then 'v' else if c = 'W' then 'w' else if c = 'X' then 'x'
  else if c = 'Y' then 'y' else if c = 'Z' then 'z' else c

/-- The lowercase ASCII letters (the image of the branches above). -/
def lowerLetters : List Char :=
  ['a', 'b', 'c', 'd', 'e', 'f', 'g', 'h', 'i', 'j', 'k', 'l', 'm',
   'n', 'o', 'p', 'q', 'r', 's', 't', 'u', 'v', 'w', 'x', 'y', 'z']

def lowerEq (a b : Char) : Bool := toLowerC a = toLowerC b

/-- Substring containment, matching Python's `needle in haystack`. -/
def containsSub (needle : Text) : Text → Bool
  | [] => needle.isEmpty
  | t@(_ :: r) => needle.isPrefixOf t || containsSub needle r

/-- Leading run length of characters satisfying p. -/
def countLeading (p : Char → Bool) : Text → Nat
  | [] => 0
  | c :: r => if p c then countLeading p r + 1 else 0

def dropWhileWs (t : Text) : Text := t.dropWhile isWsC

/-- Remove trailing whitespace; the result is a prefix of the input. -/
def dropTrailingWs : Text → Text
  | [] => []
  | c :: r =>
    let r' := dropTrailingWs r
    if r'.isEmpty && isWsC c then [] else c :: r'

/-- Python str.strip(): drop leading and trailing whitespace. -/
def pyStrip (t : Text) : Text := dropTrailingWs (dropWhileWs t)

/-! ### A small backtracking engine for the concrete regexes of the source

A matcher maps an input suffix to the list of possible remaining
suffixes after consuming a match of a pattern piece, ordered by the
backtracking preference of Python's `re` (greedy alternatives first).
All patterns in the source are built from character-class repetitions,
literals, bounded repetition and one starred group, so every matcher
below is total. -/

abbrev M := Text → List Text

def eatIf (p : Char → Bool) : M := fun s =>
  match s with
  | [] => []
  | c :: r => if p c then [r] else []

def eatCh (c : Char) : M := eatIf (fun x => x = c)

def eatChCI (c : Char) : M := eatIf (fun x => lowerEq x c)

def eatLit : Text → M
  | [], s => [s]
  | c :: cs, s =>
    match s with
    | [] => []
    | x :: r => if x = c then eatLit cs r else []

def eatLitCI : Text → M
  | [], s => [s]
  | c :: cs, s =>
    match s with
    | [] => []
    | x :: r => if lowerEq x c then eatLitCI cs r else []

def seqM (a b : M) : M := fun s => (a s).flatMap b

def altM (a b : M) : M := fun s => a s ++ b s

def altList (ms : List M) : M := fun s => ms.flatMap (fun m => m s)

/-- Optional piece, greedy (matching branch preferred). -/
def optM (a : M) : M := fun s => a s ++ [s]

/-- Class repetition with at least lo and at most hi characters, greedy. -/
def repRange (p : Char → Bool) (lo hi : Nat) : M := fun s =>
  let n := min (countLeading p s) hi
  (List.range (n + 1)).reverse.filterMap
    (fun k => if lo ≤ k then some (s.drop k) else none)

/-- Class repetition with at least lo characters, greedy. -/
def repGE (p : Char → Bool) (lo : Nat) : M := fun s =>
  let n := countLeading p s
  (List.range (n + 1)).reverse.filterMap
    (fun k => if lo ≤ k then some (s.drop k) else none)

/-- Starred group, greedy, with fuel; the group must consume input to be
repeated, which every starred group of the source does. -/
def starGrp (a : M) : Nat → M
  | 0 => fun s => [s]
  | fuel + 1 => fun s =>
    (((a s).filter (fun r => r.length < s.length)).flatMap (starGrp a fuel)) ++ [s]

/-- Group repeated up to n more times, greedy. -/
def repGrpUpTo (a : M) : Nat → M
  | 0 => fun s => [s]
  | n + 1 => fun s => ((a s).flatMap (repGrpUpTo a n)) ++ [s]

def isWordOpt : Option Char → Bool
  | none => false
  | some c => isWordC c

/-- Word boundary between a left and a right context character. -/
def boundary (l r : Option Char) : Bool := isWordOpt l != isWordOpt r

/-- A leading-context test (lookbehind / leading word boundary). -/
abbrev Lead := Option Char → Text → Bool

/-- A trailing test on the unconsumed remainder (lookahead / trailing
word boundary for patterns ending in a word character). -/
abbrev Trail := Text → Bool

def leadTrue : Lead := fun _ _ => true

def leadB : Lead := fun prev s => boundary prev s.head?

def leadWs : Lead := fun prev _ =>
  match prev with
  | some c => isWsC c
  | none => false

def trailTrue : Trail := fun _ => true

/-- Trailing word boundary for a pattern whose last character is always a
word character: the remainder must not start with a word character. -/
def trailB : Trail := fun r => !(isWordOpt r.head?)

/-- Lookahead for whitespace or end of input. -/
def trailWsEnd : Trail := fun r =>
  match r.head? with
  | none => true
  | some c => isWsC c

/-- Length of the match of a core pattern at the head of s, if the
leading and trailing context tests pass; mirrors one anchored attempt
of Python's scan. -/
def tryPat (core : M) (lead : Lead) (trail : Trail) (prev : Option Char) (s : Text) :
    Option Nat :=
  if lead prev s then
    (((core s).filter trail).head?).map (fun r => s.length - r.length)
  else
    none

/-- Leftmost non-overlapping substitution, mirroring re.sub: scan left to
right, replace each match, continue after the matched span.  A
zero-length match is treated as no match (no source pattern matches the
empty string). -/
def substGo (tryM : Option Char → Text → Option Nat) (repl : Text) :
    Nat → Option Char → Text → Text
  | 0, _, s => s
  | fuel + 1, prev, s =>
    match s with
    | [] => []
    | c :: r =>
      match tryM prev s with
      | some (n + 1) =>
        repl ++ substGo tryM repl fuel ((s.drop n).head?) (s.drop (n + 1))
      | _ => c :: substGo tryM repl fuel (some c) r

def subst (tryM : Option Char → Text → Option Nat) (repl : Text) (t : Text) : Text :=
  substGo tryM repl t.length none t

/-- Does the pattern match anywhere (re.search)? -/
def searchGo (tryM : Option Char → Text → Option Nat) :
    Nat → Option Char → Text → Bool
  | 0, _, _ => false
  | fuel + 1, prev, s =>
    match s with
    | [] => false
    | c :: r =>
      match tryM prev s with
      | some _ => true
      | none => searchGo tryM fuel (some c) r

def searchM (tryM : Option Char → Text → Option Nat) (t : Text) : Bool :=
  searchGo tryM t.length none t

/-- Number of non-overlapping matches (len of re.findall). -/
def countGo (tryM : Option Char → Text → Option Nat) :
    Nat → Option Char → Text → Nat
  | 0, _, _ => 0
  | fuel + 1, prev, s =>
    match s with
    | [] => 0
    | c :: r =>
      match tryM prev s with
      | some (n + 1) =>
        countGo tryM fuel ((s.drop n).head?) (s.drop (n + 1)) + 1
      | _ => countGo tryM fuel (some c) r

def countMatches (tryM : Option Char → Text → Option Nat) (t : Text) : Nat :=
  countGo tryM t.length none t

/-- Literal replacement used for re.sub(re.escape(needle), repl, t). -/
def replaceLitGo (needle repl : Text) : Nat → Text → Text
  | 0, s => s
  | fuel + 1, s =>
    match s with
    | [] => []
    | c :: r =>
      if needle.isPrefixOf s then repl ++ replaceLitGo needle repl fuel (s.drop needle.length)
      else c :: replaceLitGo needle repl fuel r

def replaceLit (needle repl t : Text) : Text :=
  if needle.isEmpty then t else replaceLitGo needle repl t.length t

/-- Split on a newline character; mirrors Python str.split of a single
newline (keeps empty pieces, never returns the empty list). -/
def splitNl : Text → List Text
  | [] => [[]]
  | c :: r =>
    if c = '\n' then [] :: splitNl r
    else
      match splitNl r with
      | [] => [[c]]
      | l :: ls => (c :: l) :: ls

/-- Join lines with newline characters (str.join of a newline). -/
def joinNl : List Text → Text
  | [] => []
  | [l] => l
  | l :: ls => l ++ '\n' :: joinNl ls

/-- Helper for splitWs: cur is the current word, reversed. -/
def splitWsGo (cur : Text) : Text → List Text
  | [] => if cur.isEmpty then [] else [cur.reverse]
  | c :: r =>
    if isWsC c then
      if cur.isEmpty then splitWsGo [] r else cur.reverse :: splitWsGo [] r
    else splitWsGo (c :: cur) r

/-- Python str.split() with no argument: split on whitespace runs,
dropping empty pieces. -/
def splitWs (t : Text) : List Text := splitWsGo [] t

/-- Map with the element index, starting at i. -/
def mapIdxFrom (f : Nat → α → β) (i : Nat) : List α → List β
  | [] => []
  | a :: r => f i a :: mapIdxFrom f (i + 1) r

/-! ### TextNormalizer (app/mapper/text_normalizer.py) -/

/-- The seven configuration flags of TextNormalizer.__init__. -/
structure NormCfg where
  remove_extra_whitespace : Bool := true
  normalize_line_breaks : Bool := true
  remove_special_chars : Bool := false
  lowercase : Bool := false
  remove_urls : Bool := false
  remove_emails : Bool := false
  max_consecutive_newlines : Int := 2
deriving DecidableEq, Repr

namespace TextNormalizer

/-- First str.replace of _normalize_line_breaks: CRLF to LF. -/
def replCRLF : Text → Text
  | [] => []
  | '\r' :: '\n' :: r => '\n' :: replCRLF r
  | c :: r => c :: replCRLF r

/-- _normalize_line_breaks: replace CRLF, then every lone CR, by LF. -/
def normalizeLineBreaks (t : Text) : Text :=
  (replCRLF t).map (fun c => if c = '\r' then '\n' else c)

/-- Characters kept by _remove_special_characters. -/
def keepC (c : Char) : Bool :=
  c.isAlphanum || c = ' ' || c = '.' || c = ',' || c = Char.ofNat 39 || c = '-' || c = '\n'

def removeSpecialCharacters (t : Text) : Text := t.filter keepC

/-- First sub of _remove_extra_whitespace: collapse runs of spaces and
tabs to a single space.  The Boolean state records being inside a run. -/
def collapseWsGo : Bool → Text → Text
  | _, [] => []
  | inRun, c :: r =>
    if c = ' ' || c = '\t' then
      if inRun then collapseWsGo true r else ' ' :: collapseWsGo true r
    else c :: collapseWsGo false r

def collapseWs (t : Text) : Text := collapseWsGo false t

/-- Second sub of _remove_extra_whitespace: delete spaces adjacent
(through spaces) to a newline.  p buffers pending spaces; b records
being directly after a newline (through spaces). -/
def trimNlGo : Nat → Bool → Text → Text
  | p, b, [] => if b then [] else List.replicate p ' '
  | p, b, c :: r =>
    if c = ' ' then trimNlGo (p + 1) b r
    else if c = '\n' then '\n' :: trimNlGo 0 true r
    else (if b then [] else List.replicate p ' ') ++ c :: trimNlGo 0 false r

def removeExtraWhitespace (t : Text) : Text := trimNlGo 0 false (collapseWs t)

/-- _limit_consecutive_newlines: keep at most m newlines of every run
(runs longer than m are collapsed to exactly m). -/
def capNlGo (m : Nat) : Nat → Text → Text
  | _, [] => []
  | cnt, c :: r =>
    if c = '\n' then
      if cnt < m then '\n' :: capNlGo m (cnt + 1) r else capNlGo m (cnt + 1) r
    else c :: capNlGo m 0 r

def capNl (m : Nat) (t : Text) : Text := capNlGo m 0 t

/-- The floor applied by _limit_consecutive_newlines to max_count. -/
def capFloor (m : Int) : Nat := (if m < 1 then 1 else m).toNat

def limitConsecutiveNewlines (m : Int) (t : Text) : Text := capNl (capFloor m) t

/-- Length of a match of the case-sensitive core https?://[^\s]+ at the
head of s (the URL pattern of _remove_urls without its \s* edges). -/
def urlCoreLen (s : Text) : Option Nat :=
  if (str "https://").isPrefixOf s then
    let k := countLeading (fun c => !isWsC c) (s.drop 8)
    if k = 0 then none else some (8 + k)
  else if (str "http://").isPrefixOf s then
    let k := countLeading (fun c => !isWsC c) (s.drop 7)
    if k = 0 then none else some (7 + k)
  else none

/-- Scan for _remove_urls: the matched span of \s*https?://[^\s]+\s* is
the core together with the whitespace runs around it; pend buffers
whitespace that may belong to a later match's leading \s*. -/
def urlSubGo : Nat → Text → Text → Text
  | 0, pend, s => pend.reverse ++ s
  | fuel + 1, pend, s =>
    match s with
    | [] => pend.reverse
    | c :: r =>
      if isWsC c then urlSubGo fuel (c :: pend) r
      else
        match urlCoreLen s with
        | some n => ' ' :: urlSubGo fuel [] (dropWhileWs (s.drop n))
        | none => pend.reverse ++ c :: urlSubGo fuel [] r

/-- _remove_urls: substitute each URL (with surrounding whitespace) by a
single space, then strip. -/
def removeUrls (t : Text) : Text := pyStrip (urlSubGo t.length [] t)

/-- Local-part characters of the email patterns. -/
def localC (c : Char) : Bool :=
  c.isAlphanum || c = '.' || c = '_' || c = '%' || c = '+' || c = '-'

/-- Domain characters of the email patterns. -/
def domC (c : Char) : Bool := c.isAlphanum || c = '.' || c = '-'

/-- The email core local@domain.tld (shared by the normalizer pattern and
the anonymizer pattern, whose character classes agree). -/
def emailCore : M :=
  seqM (repGE localC 1)
    (seqM (eatCh '@')
      (seqM (repGE domC 1)
        (seqM (eatCh '.') (repGE isAlphaC 2))))

/-- One anchored attempt of the email core with its word-boundary edges;
prevW is the wordness of the character before the attempt position. -/
def tryEmailCore (prevW : Bool) (s : Text) : Option Nat :=
  if prevW != isWordOpt s.head? then
    (((emailCore s).filter trailB).head?).map (fun r => s.length - r.length)
  else none

/-- Scan for _remove_emails of the normalizer: matched span is
\s* boundary local@domain.tld boundary \s*, replaced by one space. -/
def emailSubGo : Nat → Bool → Text → Text → Text
  | 0, _, pend, s => pend.reverse ++ s
  | fuel + 1, prevW, pend, s =>
    match s with
    | [] => pend.reverse
    | c :: r =>
      if isWsC c then emailSubGo fuel false (c :: pend) r
      else
        match tryEmailCore (if pend.isEmpty then prevW else false) s with
        | some n =>
          let rest := s.drop n
          let prevW' : Bool :=
            match rest.head? with
            | some d => !isWsC d
            | none => true
          ' ' :: emailSubGo fuel prevW' [] (dropWhileWs rest)
        | none => pend.reverse ++ c :: emailSubGo fuel (isWordC c) [] r

/-- _remove_emails of the normalizer: substitute each email (with
surrounding whitespace) by a single space, then strip. -/
def removeEmails (t : Text) : Text := pyStrip (emailSubGo t.length false [] t)

/-- One optional step of normalize: applied when its flag is set. -/
def condStep (flag : Bool) (f : Text → Text) (t : Text) : Text :=
  if flag then f t else t

/-- The configured steps of TextNormalizer.normalize in the fixed order
of the source (line breaks, URLs, emails, special characters,
whitespace, lowercasing, newline capping), then the final strip. -/
def normalizeCore (cfg : NormCfg) (t : Text) : Text :=
  pyStrip
    (limitConsecutiveNewlines cfg.max_consecutive_newlines
      (condStep cfg.lowercase (List.map toLowerC)
        (condStep cfg.remove_extra_whitespace removeExtraWhitespace
          (condStep cfg.remove_special_chars removeSpecialCharacters
            (condStep cfg.remove_emails removeEmails
              (condStep cfg.remove_urls removeUrls
                (condStep cfg.normalize_line_breaks normalizeLineBreaks t)))))))

/-- TextNormalizer.normalize: empty input maps to empty output,
otherwise the configured steps run in order. -/
def normalize (cfg : NormCfg) (t : Text) : Text :=
  if t = [] then [] else normalizeCore cfg t

end TextNormalizer

/-! ### NormalizerPresets (app/mapper/normalizer_presets.py) -/

namespace NormalizerPresets

def defaultPreset : NormCfg :=
  { remove_extra_whitespace := true, normalize_line_breaks := true,
    remove_special_chars := false, lowercase := false,
    remove_urls := false, remove_emails := false,
    max_consecutive_newlines := 2 }

def aggressive : NormCfg :=
  { remove_extra_whitespace := true, normalize_line_breaks := true,
    remove_special_chars := true, lowercase := true,
    remove_urls := true, remove_emails := true,
    max_consecutive_newlines := 1 }

def minimal : NormCfg :=
  { remove_extra_whitespace := true, normalize_line_breaks := true,
    remove_special_chars := false, lowercase := false,
    remove_urls := false, remove_emails := false,
    max_consecutive_newlines := 3 }

def searchOptimized : NormCfg :=
  { remove_extra_whitespace := true, normalize_line_breaks := true,
    remove_special_chars := false, lowercase := true,
    remove_urls := true, remove_emails := false,
    max_consecutive_newlines := 1 }

def forJobMatching : NormCfg :=
  { remove_extra_whitespace := true, normalize_line_breaks := true,
    remove_special_chars := false, lowercase := false,
    remove_urls := true, remove_emails := false,
    max_consecutive_newlines := 2 }

def forSkillsExtraction : NormCfg :=
  { remove_extra_whitespace := true, normalize_line_breaks := true,
    remove_special_chars := false, lowercase := false,
    remove_urls := true, remove_emails := true,
    max_consecutive_newlines := 1 }

def aggressiveForEmbeddings : NormCfg :=
  { remove_extra_whitespace := true, normalize_line_breaks := true,
    remove_special_chars := false, lowercase := true,
    remove_urls := true, remove_emails := true,
    max_consecutive_newlines := 1 }

end NormalizerPresets

/-! ### PrivacyAwareAnonymizer (app/mapper/privacy_aware_anonymizer.py) -/

namespace PrivacyAwareAnonymizer

def phEMAIL : Text := str "[EMAIL]"
def phPHONE : Text := str "[PHONE]"
def phURL : Text := str "[URL]"
def phSOCIAL : Text := str "[SOCIAL]"
def phID : Text := str "[ID]"
def phNAME : Text := str "[NAME]"
def phEDUCATION : Text := str "[EDUCATION]"

/-- _remove_emails: the email pattern with word boundaries at both
edges (its character classes are case-insensitive already). -/
def tryEmail : Option Char → Text → Option Nat :=
  tryPat TextNormalizer.emailCore leadB trailB

def remove_emails (t : Text) : Text := subst tryEmail phEMAIL t

def nonWs (c : Char) : Bool := !isWsC c

/-- The URL pattern https?://\S+|www\.\S+, case-insensitive. -/
def urlCore : M :=
  altM
    (seqM (eatLitCI (str "http"))
      (seqM (optM (eatChCI 's')) (seqM (eatLit (str "://")) (repGE nonWs 1))))
    (seqM (eatLitCI (str "www.")) (repGE nonWs 1))

def remove_urls (t : Text) : Text :=
  subst (tryPat urlCore leadTrue trailTrue) phURL t

def wordDash (c : Char) : Bool := isWordC c || c = '-'

/-- The four social-media patterns, applied in the source's order. -/
def socialHandleCore : M := seqM (eatCh '@') (repGE isWordC 1)

def remove_social_media (t : Text) : Text :=
  let t := subst (tryPat socialHandleCore leadWs trailWsEnd) phSOCIAL t
  let t := subst (tryPat (seqM (eatLitCI (str "linkedin.com/in/")) (repGE wordDash 1))
    leadTrue trailTrue) phSOCIAL t
  let t := subst (tryPat (seqM (eatLitCI (str "github.com/")) (repGE wordDash 1))
    leadTrue trailTrue) phSOCIAL t
  subst (tryPat (seqM (eatLitCI (str "twitter.com/")) (repGE wordDash 1))
    leadTrue trailTrue) phSOCIAL t

/-- _remove_id_numbers: bare digit runs of length at least 9, then 2-3
uppercase letters followed by at least 6 digits (case-sensitive). -/
def remove_id_numbers (t : Text) : Text :=
  let t := subst (tryPat (repGE isDigitC 9) leadB trailB) phID t
  subst (tryPat (seqM (repRange isUpperC 2 3) (repGE isDigitC 6)) leadB trailB) phID t

def streetKeyword : M :=
  altList [eatLitCI (str "Street"), eatLitCI (str "St"), eatLitCI (str "Avenue"),
    eatLitCI (str "Ave"), eatLitCI (str "Road"), eatLitCI (str "Rd"),
    eatLitCI (str "Boulevard"), eatLitCI (str "Blvd"), eatLitCI (str "Calle"),
    eatLitCI (str "Avenida"), eatLitCI (str "Carrera")]

/-- Street-address core: digits, whitespace, a capitalized word (any two
or more letters under IGNORECASE), whitespace, street keyword. -/
def addressCore : M :=
  seqM (repGE isDigitC 1)
    (seqM (repGE isWsC 1)
      (seqM (eatIf isAlphaC)
        (seqM (repGE isAlphaC 1) (seqM (repGE isWsC 1) streetKeyword))))

/-- ZIP core: exactly five digits, optionally a dash and four digits. -/
def zipCore : M :=
  seqM (repRange isDigitC 5 5) (optM (seqM (eatCh '-') (repRange isDigitC 4 4)))

/-- _remove_addresses: street addresses get a placeholder, ZIP-like
codes are deleted outright. -/
def remove_addresses (t : Text) : Text :=
  let t := subst (tryPat addressCore leadB trailB) (str "[ADDRESS]") t
  subst (tryPat zipCore leadB trailB) [] t

def sepC (c : Char) : Bool := isWsC c || c = '-' || c = '.'

def enheCI : M := eatIf (fun c => c = 'ñ' || c = 'Ñ' || lowerEq c 'n')

def oaCI : M := eatIf (fun c => lowerEq c 'o' || lowerEq c 'a')

/-- Age pattern 1: one or two digits, optional whitespace, then
years?\s+old or a[ñn]os?. -/
def age1Core : M :=
  seqM (repRange isDigitC 1 2)
    (seqM (repGE isWsC 0)
      (altM
        (seqM (eatLitCI (str "year"))
          (seqM (optM (eatChCI 's')) (seqM (repGE isWsC 1) (eatLitCI (str "old")))))
        (seqM (eatChCI 'a') (seqM enheCI (seqM (eatChCI 'o') (optM (eatChCI 's')))))))

def age2Core : M :=
  seqM (altM (eatLitCI (str "age")) (eatLitCI (str "edad")))
    (seqM (eatCh ':') (seqM (repGE isWsC 0) (repRange isDigitC 1 2)))

def age3Core : M :=
  seqM (eatLitCI (str "born"))
    (seqM (repGE isWsC 1)
      (seqM (altM (eatLitCI (str "in")) (eatLitCI (str "on")))
        (seqM (repGE isWsC 1) (repRange isDigitC 4 4))))

def age4Core : M :=
  seqM (eatLitCI (str "nacid"))
    (seqM oaCI
      (seqM (repGE isWsC 1)
        (seqM (altM (eatLitCI (str "en")) (eatLitCI (str "el")))
          (seqM (repGE isWsC 1) (repRange isDigitC 4 4)))))

def remove_age_references (t : Text) : Text :=
  let t := subst (tryPat age1Core leadB trailB) (str "[AGE]") t
  let t := subst (tryPat age2Core leadB trailB) (str "[AGE]") t
  let t := subst (tryPat age3Core leadB trailB) (str "[AGE]") t
  subst (tryPat age4Core leadB trailB) (str "[AGE]") t

def gender1Core : M :=
  seqM
    (altList [eatLitCI (str "male"), eatLitCI (str "female"), eatLitCI (str "hombre"),
      eatLitCI (str "mujer"), eatLitCI (str "masculino"), eatLitCI (str "femenino"),
      eatLitCI (str "género"), eatLitCI (str "gender")])
    (seqM (eatCh ':') (seqM (repGE isWsC 0) (repGE isWordC 1)))

def gender2Core : M :=
  seqM (altM (eatLitCI (str "sex")) (eatLitCI (str "sexo")))
    (seqM (eatCh ':') (seqM (repGE isWsC 0) (repGE isWordC 1)))

/-- _remove_gender_references: matches are deleted, no placeholder. -/
def remove_gender_references (t : Text) : Text :=
  let t := subst (tryPat gender1Core leadB trailB) [] t
  subst (tryPat gender2Core leadB trailB) [] t

def marital1Core : M :=
  altList [eatLitCI (str "single"), eatLitCI (str "married"), eatLitCI (str "divorced"),
    seqM (eatLitCI (str "casad")) oaCI, seqM (eatLitCI (str "solter")) oaCI,
    seqM (eatLitCI (str "divorciad")) oaCI, seqM (eatLitCI (str "viud")) oaCI]

def marital2Core : M :=
  seqM (altM (eatLitCI (str "marital status")) (eatLitCI (str "estado civil")))
    (seqM (eatCh ':') (seqM (repGE isWsC 0) (repGE isWordC 1)))

/-- _remove_marital_status: matches are deleted, no placeholder. -/
def remove_marital_status (t : Text) : Text :=
  let t := subst (tryPat marital1Core leadB trailB) [] t
  subst (tryPat marital2Core leadB trailB) [] t

def universityKeywords : List Text :=
  [str "university", str "universidad", str "college", str "instituto",
   str "institute", str "school", str "escuela", str "academy",
   str "academia", str "polytechnic", str "politécnico"]

/-- The degree keywords paired with their Python str.title() forms. -/
def degreeKeywords : List (Text × Text) :=
  [(str "bachelor", str "Bachelor"), (str "master", str "Master"),
   (str "phd", str "Phd"), (str "doctorate", str "Doctorate"),
   (str "licenciatura", str "Licenciatura"), (str "maestría", str "Maestría"),
   (str "doctorado", str "Doctorado"), (str "ingeniería", str "Ingeniería"),
   (str "engineering", str "Engineering")]

/-- One line of _anonymize_education. -/
def educationLine (l : Text) : Text :=
  let ll := l.map toLowerC
  if universityKeywords.any (fun k => containsSub k ll) then
    let preserved := degreeKeywords.filterMap
      (fun p => if containsSub p.1 ll then some p.2 else none)
    if preserved.isEmpty then phEDUCATION else List.intercalate [' '] preserved
  else l

def anonymize_education (t : Text) : Text :=
  joinNl ((splitNl t).map educationLine)

/-- A line that already carries a contact placeholder from an earlier
stage is passed through untouched by _remove_personal_names. -/
def hasContactPlaceholder (l : Text) : Bool :=
  containsSub phEMAIL l || containsSub phPHONE l || containsSub phSOCIAL l ||
    containsSub phURL l

def headerWords : List Text := [str "summary", str "profile", str "skills"]

/-- A capitalized word under IGNORECASE: two or more ASCII letters. -/
def capWord : M := seqM (eatIf isAlphaC) (repGE isAlphaC 1)

/-- The inline name pattern (name|nombre):\s*[A-Z][a-z]+(?:\s+[A-Z][a-z]+)*
with word boundaries at both edges, case-insensitive. -/
def nameCore : M := fun s =>
  (seqM (altM (eatLitCI (str "name")) (eatLitCI (str "nombre")))
    (seqM (eatCh ':')
      (seqM (repGE isWsC 0)
        (seqM capWord (starGrp (seqM (repGE isWsC 1) capWord) s.length))))) s

def tryName : Option Char → Text → Option Nat := tryPat nameCore leadB trailB

/-- One line of _remove_personal_names, with its index in the document. -/
def nameLine (i : Nat) (l : Text) : Text :=
  if hasContactPlaceholder l then l
  else if i < 3 ∧ (splitWs l).length ≤ 4 ∧
      (splitWs l).all (fun w => !(headerWords.contains (w.map toLowerC))) then phNAME
  else subst tryName phNAME l

def remove_personal_names (t : Text) : Text :=
  joinNl (mapIdxFrom nameLine 0 (splitNl t))

/-- Keyword guard of the fallback phone pass. -/
def guardTry : Option Char → Text → Option Nat :=
  tryPat
    (altList [eatLitCI (str "python"), eatLitCI (str "aws"), eatLitCI (str "ec2"),
      eatLitCI (str "micro"), eatLitCI (str "version")])
    leadB trailB

def phoneGrp : M :=
  seqM (optM (eatCh '('))
    (seqM (repRange isDigitC 2 4) (seqM (optM (eatCh ')')) (optM (eatIf sepC))))

/-- The generic fallback phone pattern: optional country-code prefix,
two to four digit groups, a trailing digit group, followed by
whitespace or end of line. -/
def phoneCore : M :=
  seqM (optM (seqM (optM (eatCh '+')) (seqM (repRange isDigitC 1 3) (eatIf sepC))))
    (seqM phoneGrp
      (seqM phoneGrp (seqM (repGrpUpTo phoneGrp 2) (repRange isDigitC 2 4))))

def tryPhone : Option Char → Text → Option Nat := tryPat phoneCore leadTrue trailWsEnd

/-- The fallback pass applied to one line of _remove_phone_numbers:
lines containing a guarded technical keyword are left unchanged. -/
def phoneFallbackLine (l : Text) : Text :=
  if searchM guardTry l then l else subst tryPhone phPHONE l

/-- _remove_phone_numbers.  The external locale-aware matcher
(phonenumbers.PhoneNumberMatcher for the US and CO regions, run over a
punctuation-normalized copy of the text) is not part of the repository;
following the spec it is modelled by the parameter found, the list of
whitespace-stripped raw strings the matcher reports.  Each nonempty
found string is literal-replaced by the phone placeholder, then the
fallback pass runs line by line. -/
def remove_phone_numbers (found : List Text) (t : Text) : Text :=
  let result := found.foldl
    (fun acc n => if n.isEmpty then acc else replaceLit n phPHONE acc) t
  joinNl ((splitNl result).map phoneFallbackLine)

/-- _cleanup_formatting: collapse space runs, cap newline runs at two,
collapse a placeholder-only line between newlines, collapse
whitespace-only gaps between newlines. -/
def cleanupC3Core : M :=
  seqM (eatCh '\n')
    (seqM (repGE isWsC 0)
      (seqM (eatCh '[')
        (seqM (repGE isWordC 1)
          (seqM (eatCh ']') (seqM (repGE isWsC 0) (eatCh '\n'))))))

def cleanupC4Core : M := seqM (eatCh '\n') (seqM (repGE isWsC 1) (eatCh '\n'))

def cleanup_formatting (t : Text) : Text :=
  let t := TextNormalizer.collapseWs t
  let t := TextNormalizer.capNl 2 t
  let t := subst (tryPat cleanupC3Core leadTrue trailTrue) (str "\n") t
  subst (tryPat cleanupC4Core leadTrue trailTrue) (str "\n\n") t

/-- The stages of anonymize that run after the phone stage, in the
source's order, ending with the final strip. -/
def postPhoneStages (a : Text) : Text :=
  let a := remove_urls a
  let a := remove_social_media a
  let a := remove_id_numbers a
  let a := remove_addresses a
  let a := remove_age_references a
  let a := remove_gender_references a
  let a := remove_marital_status a
  let a := anonymize_education a
  let a := remove_personal_names a
  let a := cleanup_formatting a
  pyStrip a

/-- PrivacyAwareAnonymizer.anonymize: the twelve stages in the source's
order, then a final strip.  found models the output of the external
phonenumbers matcher (see remove_phone_numbers). -/
def anonymize (found : List Text) (t : Text) : Text :=
  if t = [] then []
  else postPhoneStages (remove_phone_numbers found (remove_emails t))

end PrivacyAwareAnonymizer

/-! ### PrivacyAwareNormalizer (app/mapper/privacy_aware_normalizer.py) -/

namespace PrivacyAwareNormalizer

/-- The conservative TextNormalizer configuration built in __init__. -/
def normalizerCfg : NormCfg :=
  { remove_extra_whitespace := true, normalize_line_breaks := true,
    remove_special_chars := false, lowercase := false,
    remove_urls := false, remove_emails := false,
    max_consecutive_newlines := 2 }

structure ProcessResult where
  anonymized_text : Text
  original_length : Nat
  final_length : Nat
  pii_removed : Nat
deriving DecidableEq, Repr

/-- Python str.count: non-overlapping occurrences of a nonempty needle. -/
def countOccurGo (needle : Text) : Nat → Text → Nat
  | 0, _ => 0
  | fuel + 1, s =>
    match s with
    | [] => 0
    | _ :: r =>
      if needle.isPrefixOf s then countOccurGo needle fuel (s.drop needle.length) + 1
      else countOccurGo needle fuel r

def countOccur (needle t : Text) : Nat :=
  if needle.isEmpty then 0 else countOccurGo needle t.length t

/-- The coarse phone-shaped pattern \d{3}[-.\s]?\d{3}[-.\s]?\d{4} used
only for the pii_removed estimate. -/
def piiPhoneCore : M :=
  seqM (repRange isDigitC 3 3)
    (seqM (optM (eatIf PrivacyAwareAnonymizer.sepC))
      (seqM (repRange isDigitC 3 3)
        (seqM (optM (eatIf PrivacyAwareAnonymizer.sepC)) (repRange isDigitC 4 4))))

def tryPiiPhone : Option Char → Text → Option Nat :=
  tryPat piiPhoneCore leadTrue trailTrue

/-- PrivacyAwareNormalizer.process. -/
def process (found : List Text) (t : Text) : ProcessResult :=
  if t = [] then
    { anonymized_text := [], original_length := 0, final_length := 0, pii_removed := 0 }
  else
    let anonymized := PrivacyAwareAnonymizer.anonymize found t
    let normalized := TextNormalizer.normalize normalizerCfg anonymized
    let piiCount := countOccur (str "@") t + countMatches tryPiiPhone t +
      countOccur (str "http") t + countOccur (str "linkedin") t
    { anonymized_text := normalized, original_length := t.length,
      final_length := normalized.length, pii_removed := piiCount }

end PrivacyAwareNormalizer

/-! ### Concrete inputs of the specification's scenarios -/

/-- The eight-line end-to-end input of the spec. -/
def c1Input : Text :=
  str "Name: María López\nEmail: maria.lopez@example.com\nPhone: +1 (555) 123-4567\nLinkedIn: linkedin.com/in/mlopez\nBachelor in Engineering, Universidad de Ejemplo\nAge: 30\nGender: female\nMarried"

/-- The expected anonymize output for c1Input. -/
def c1Output : Text :=
  str "[NAME]\nEmail: [EMAIL]\nPhone: [PHONE]\nLinkedIn: [SOCIAL]\nBachelor Engineering"

def c2Input : Text := str "Email: x@y.com"

def c3Line : Text := str "AWS EC2 micro version 2.0.1"

def c4InputA : Text := str "Bachelor of Science, University of Example"

def c4InputB : Text := str "Instituto de Ejemplo"

/-- A configuration on which normalize is not idempotent: URL removal is
case-sensitive, but lowercasing runs after it and can create a fresh
lowercase URL for the second pass to consume. -/
def cfgCE : NormCfg :=
  { remove_extra_whitespace := true, normalize_line_breaks := true,
    remove_special_chars := false, lowercase := true,
    remove_urls := true, remove_emails := false,
    max_consecutive_newlines := 2 }

/-! ### Invariant predicates used in the idempotence development -/

/-- All adjacent pairs of the text satisfy f, threading the previous
character as state. -/
def chainOK (f : Char → Char → Bool) : Option Char → Text → Bool
  | _, [] => true
  | p, c :: r =>
    (match p with
     | none => true
     | some a => f a c) && chainOK f (some c) r

def pairsOK (f : Char → Char → Bool) (t : Text) : Bool := chainOK f none t

/-- The adjacent-pair condition produced by _remove_extra_whitespace: no
double space, no space directly before or after a newline. -/
def gPair (a b : Char) : Bool :=
  !((a == ' ') && (b == ' ')) && !((a == ' ') && (b == '\n')) &&
    !((a == '\n') && (b == ' '))

/-- Length of the leading newline run. -/
def leadingNl (t : Text) : Nat := countLeading (fun c => c = '\n') t

/-- Whether the text contains a run of more than M newlines. -/
def hasNlRun (M : Nat) : Text → Bool
  | [] => false
  | c :: r => decide (M + 1 ≤ leadingNl (c :: r)) || hasNlRun M r

/-! ### General lemmas about the embedding -/

theorem replaceLitGo_of_not_contains (n repl : Text) :
    ∀ (fuel : Nat) (s : Text), containsSub n s = false →
      replaceLitGo n repl fuel s = s := by
  intro fuel
  induction fuel with
  | zero => intro s _; rfl
  | succ fuel ih =>
    intro s h
    match s with
    | [] => rfl
    | c :: r =>
      rw [containsSub] at h
      simp only [Bool.or_eq_false_iff] at h
      rw [replaceLitGo, if_neg (by simp [h.1]), ih r h.2]

theorem replaceLit_of_not_contains (n repl t : Text) (h : containsSub n t = false) :
    replaceLit n repl t = t := by
  rw [replaceLit]
  split
  · rfl
  · exact replaceLitGo_of_not_contains n repl t.length t h

theorem foldl_replace_of_not_contains (repl : Text) :
    ∀ (found : List Text) (t : Text), (∀ n ∈ found, containsSub n t = false) →
      found.foldl (fun acc n => if n.isEmpty then acc else replaceLit n repl acc) t = t := by
  intro found
  induction found with
  | nil => intro t _; rfl
  | cons n found ih =>
    intro t h
    have h1 : (if n.isEmpty then t else replaceLit n repl t) = t := by
      split
      · rfl
      · exact replaceLit_of_not_contains n repl t (h n (by simp))
    rw [List.foldl_cons, h1]
    exact ih t (fun m hm => h m (by simp [hm]))

theorem remove_phone_numbers_found_irrelevant (found : List Text) (t : Text)
    (h : ∀ n ∈ found, containsSub n t = false) :
    PrivacyAwareAnonymizer.remove_phone_numbers found t =
      PrivacyAwareAnonymizer.remove_phone_numbers [] t := by
  rw [PrivacyAwareAnonymizer.remove_phone_numbers,
    PrivacyAwareAnonymizer.remove_phone_numbers,
    foldl_replace_of_not_contains _ found t h]
  rfl

theorem anonymize_found_irrelevant (found : List Text) (t : Text)
    (h : ∀ n ∈ found, containsSub n (PrivacyAwareAnonymizer.remove_emails t) = false) :
    PrivacyAwareAnonymizer.anonymize found t = PrivacyAwareAnonymizer.anonymize [] t := by
  rw [PrivacyAwareAnonymizer.anonymize, PrivacyAwareAnonymizer.anonymize,
    remove_phone_numbers_found_irrelevant found _ h]

theorem splitNl_ne_nil : ∀ t : Text, splitNl t ≠ []
  | [] => by simp [splitNl]
  | c :: r => by
    rw [splitNl]
    split
    · simp
    · split <;> simp

theorem splitNl_of_no_nl : ∀ l : Text, '\n' ∉ l → splitNl l = [l] := by
  intro l
  induction l with
  | nil => intro _; rfl
  | cons c r ih =>
    intro h
    simp only [List.mem_cons, not_or] at h
    rw [splitNl, if_neg (fun hc => h.1 hc.symm), ih h.2]

theorem splitNl_append_nl (l r : Text) (h : '\n' ∉ l) :
    splitNl (l ++ '\n' :: r) = l :: splitNl r := by
  induction l with
  | nil => simp [splitNl]
  | cons c l ih =>
    simp only [List.mem_cons, not_or] at h
    rw [List.cons_append, splitNl, if_neg (fun hc => h.1 hc.symm), ih h.2]

theorem not_nl_mem_splitNl : ∀ (t : Text), ∀ l ∈ splitNl t, '\n' ∉ l := by
  intro t
  induction t with
  | nil => intro l hl; simp [splitNl] at hl; simp [hl]
  | cons c r ih =>
    intro l hl
    rw [splitNl] at hl
    by_cases hc : c = '\n'
    · rw [if_pos hc] at hl
      rcases List.mem_cons.mp hl with h | h
      · simp [h]
      · exact ih l h
    · rw [if_neg hc] at hl
      rcases hsp : splitNl r with _ | ⟨l', ls⟩
      · exact absurd hsp (splitNl_ne_nil r)
      · rw [hsp] at hl
        rcases List.mem_cons.mp hl with h | h
        · subst h
          intro hmem
          rcases List.mem_cons.mp hmem with h | h
          · exact hc h.symm
          · exact ih l' (by rw [hsp]; simp) h
        · exact ih l (by rw [hsp]; simp [h])

theorem joinNl_cons (l : Text) (l2 : Text) (ls : List Text) :
    joinNl (l :: l2 :: ls) = l ++ '\n' :: joinNl (l2 :: ls) := by
  rfl

theorem splitNl_joinNl : ∀ ls : List Text, ls ≠ [] → (∀ l ∈ ls, '\n' ∉ l) →
    splitNl (joinNl ls) = ls := by
  intro ls
  induction ls with
  | nil => intro h; exact absurd rfl h
  | cons l ls ih =>
    intro _ h
    match ls with
    | [] => exact splitNl_of_no_nl l (h l (by simp))
    | l2 :: ls' =>
      rw [joinNl_cons, splitNl_append_nl _ _ (h l (by simp)),
        ih (by simp) (fun x hx => h x (by simp [hx]))]

theorem mapIdxFrom_getElem? (f : Nat → α → β) :
    ∀ (ls : List α) (i k : Nat), (mapIdxFrom f i ls)[k]? = ls[k]?.map (f (i + k)) := by
  intro ls
  induction ls with
  | nil => intro i k; simp [mapIdxFrom]
  | cons a r ih =>
    intro i k
    match k with
    | 0 => simp [mapIdxFrom]
    | k + 1 =>
      rw [mapIdxFrom]
      simp only [List.getElem?_cons_succ]
      rw [ih (i + 1) k]
      have harith : i + 1 + k = i + (k + 1) := by omega
      rw [harith]

theorem mapIdxFrom_ne_nil (f : Nat → α → β) (i : Nat) (ls : List α) (h : ls ≠ []) :
    mapIdxFrom f i ls ≠ [] := by
  match ls with
  | [] => exact absurd rfl h
  | a :: r => simp [mapIdxFrom]

theorem mapIdxFrom_mem (f : Nat → α → β) :
    ∀ (ls : List α) (i : Nat) (b : β), b ∈ mapIdxFrom f i ls →
      ∃ j a, a ∈ ls ∧ b = f j a := by
  intro ls
  induction ls with
  | nil => intro i b h; simp [mapIdxFrom] at h
  | cons a r ih =>
    intro i b h
    rw [mapIdxFrom] at h
    rcases List.mem_cons.mp h with h | h
    · exact ⟨i, a, by simp, h⟩
    · rcases ih (i + 1) b h with ⟨j, a', ha', hb⟩
      exact ⟨j, a', by simp [ha'], hb⟩

theorem substGo_mem (tryM : Option Char → Text → Option Nat) (repl : Text) :
    ∀ (fuel : Nat) (prev : Option Char) (s : Text) (c : Char),
      c ∈ substGo tryM repl fuel prev s → c ∈ s ∨ c ∈ repl := by
  intro fuel
  induction fuel with
  | zero => intro prev s c h; exact Or.inl h
  | succ fuel ih =>
    intro prev s c h
    match s with
    | [] => simp [substGo] at h
    | d :: r =>
      rw [substGo] at h
      rcases htry : tryM prev (d :: r) with _ | n
      · rw [htry] at h
        rcases List.mem_cons.mp h with h | h
        · exact Or.inl (by simp [h])
        · rcases ih (some d) r c h with h | h
          · exact Or.inl (by simp [h])
          · exact Or.inr h
      · match n with
        | 0 =>
          rw [htry] at h
          rcases List.mem_cons.mp h with h | h
          · exact Or.inl (by simp [h])
          · rcases ih (some d) r c h with h | h
            · exact Or.inl (by simp [h])
            · exact Or.inr h
        | n + 1 =>
          rw [htry] at h
          rcases List.mem_append.mp h with h | h
          · exact Or.inr h
          · rcases ih _ _ c h with h | h
            · exact Or.inl (List.mem_of_mem_drop h)
            · exact Or.inr h

theorem subst_mem (tryM : Option Char → Text → Option Nat) (repl : Text)
    (t : Text) (c : Char) (h : c ∈ subst tryM repl t) : c ∈ t ∨ c ∈ repl :=
  substGo_mem tryM repl t.length none t c h

namespace PrivacyAwareAnonymizer

theorem nameLine_no_nl (i : Nat) (l : Text) (h : '\n' ∉ l) : '\n' ∉ nameLine i l := by
  rw [nameLine]
  split
  · exact h
  · split
    · decide
    · intro hmem
      rcases subst_mem tryName phNAME l '\n' hmem with hc | hc
      · exact h hc
      · exact absurd hc (by decide)

/-- The lines of the name stage's output are exactly the per-line
results of nameLine on the input's lines. -/
theorem remove_personal_names_lines (t : Text) :
    splitNl (remove_personal_names t) = mapIdxFrom nameLine 0 (splitNl t) := by
  rw [remove_personal_names]
  refine splitNl_joinNl _ (mapIdxFrom_ne_nil _ _ _ (splitNl_ne_nil t)) ?_
  intro l hl
  rcases mapIdxFrom_mem _ _ _ _ hl with ⟨j, a, ha, hb⟩
  rw [hb]
  exact nameLine_no_nl j a (not_nl_mem_splitNl t a ha)

/-- A line of the document that already contains one of the EMAIL,
PHONE, SOCIAL or URL placeholders is passed through untouched by the
personal-name stage. -/
theorem nameStage_skips_placeholder_lines (t : Text) (i : Nat) (l : Text)
    (hget : (splitNl t)[i]? = some l) (hph : hasContactPlaceholder l = true) :
    (splitNl (remove_personal_names t))[i]? = some l := by
  rw [remove_personal_names_lines, mapIdxFrom_getElem?, hget]
  show some (nameLine (0 + i) l) = some l
  rw [nameLine, if_pos hph]

end PrivacyAwareAnonymizer

theorem splitWsGo_of_all_ws : ∀ l : Text, (∀ c ∈ l, isWsC c = true) →
    splitWsGo [] l = [] := by
  intro l
  induction l with
  | nil => intro _; rfl
  | cons c r ih =>
    intro h
    rw [splitWsGo, if_pos (h c (by simp))]
    exact ih (fun d hd => h d (by simp [hd]))

theorem splitWs_of_all_ws (l : Text) (h : ∀ c ∈ l, isWsC c = true) :
    splitWs l = [] := splitWsGo_of_all_ws l h

/-! ### Character facts about ASCII lowercasing -/

theorem toLowerC_image (c : Char) : toLowerC c = c ∨ toLowerC c ∈ lowerLetters := by
  unfold toLowerC
  by_cases h1 : c = 'A'
  · rw [if_pos h1]; right; decide
  rw [if_neg h1]
  by_cases h2 : c = 'B'
  · rw [if_pos h2]; right; decide
  rw [if_neg h2]
  by_cases h3 : c = 'C'
  · rw [if_pos h3]; right; decide
  rw [if_neg h3]
  by_cases h4 : c = 'D'
  · rw [if_pos h4]; right; decide
  rw [if_neg h4]
  by_cases h5 : c = 'E'
  · rw [if_pos h5]; right; decide
  rw [if_neg h5]
  by_cases h6 : c = 'F'
  · rw [if_pos h6]; right; decide
  rw [if_neg h6]
  by_cases h7 : c = 'G'
  · rw [if_pos h7]; right; decide
  rw [if_neg h7]
  by_cases h8 : c = 'H'
  · rw [if_pos h8]; right; decide
  rw [if_neg h8]
  by_cases h9 : c = 'I'
  · rw [if_pos h9]; right; decide
  rw [if_neg h9]
  by_cases h10 : c = 'J'
  · rw [if_pos h10]; right; decide
  rw [if_neg h10]
  by_cases h11 : c = 'K'
  · rw [if_pos h11]; right; decide
  rw [if_neg h11]
  by_cases h12 : c = 'L'
  · rw [if_pos h12]; right; decide
  rw [if_neg h12]
  by_cases h13 : c = 'M'
  · rw [if_pos h13]; right; decide
  rw [if_neg h13]
  by_cases h14 : c = 'N'
  · rw [if_pos h14]; right; decide
  rw [if_neg h14]
  by_cases h15 : c = 'O'
  · rw [if_pos h15]; right; decide
  rw [if_neg h15]
  by_cases h16 : c = 'P'
  · rw [if_pos h16]; right; decide
  rw [if_neg h16]
  by_cases h17 : c = 'Q'
  · rw [if_pos h17]; right; decide
  rw [if_neg h17]
  by_cases h18 : c = 'R'
  · rw [if_pos h18]; right; decide
  rw [if_neg h18]
  by_cases h19 : c = 'S'
  · rw [if_pos h19]; right; decide
  rw [if_neg h19]
  by_cases h20 : c = 'T'
  · rw [if_pos h20]; right; decide
  rw [if_neg h20]
  by_cases h21 : c = 'U'
  · rw [if_pos h21]; right; decide
  rw [if_neg h21]
  by_cases h22 : c = 'V'
  · rw [if_pos h22]; right; decide
  rw [if_neg h22]
  by_cases h23 : c = 'W'
  · rw [if_pos h23]; right; decide
  rw [if_neg h23]
  by_cases h24 : c = 'X'
  · rw [if_pos h24]; right; decide
  rw [if_neg h24]
  by_cases h25 : c = 'Y'
  · rw [if_pos h25]; right; decide
  rw [if_neg h25]
  by_cases h26 : c = 'Z'
  · rw [if_pos h26]; right; decide
  rw [if_neg h26]
  left; rfl

theorem lowerLetters_fix : ∀ d ∈ lowerLetters, toLowerC d = d := by decide

theorem toLowerC_idem (c : Char) : toLowerC (toLowerC c) = toLowerC c := by
  rcases toLowerC_image c with h | h
  · rw [h]; exact h
  · exact lowerLetters_fix _ h

theorem toLowerC_eq_iff (c d : Char) (h1 : d ∉ lowerLetters) (h2 : toLowerC d = d) :
    toLowerC c = d ↔ c = d := by
  constructor
  · intro h
    rcases toLowerC_image c with hc | hc
    · rw [← hc]; exact h
    · exact absurd (h ▸ hc) h1
  · intro h; rw [h]; exact h2

theorem toLowerC_keep (c : Char) (h : TextNormalizer.keepC c = true) :
    TextNormalizer.keepC (toLowerC c) = true := by
  rcases toLowerC_image c with hc | hc
  · rw [hc]; exact h
  · have hall : ∀ d ∈ lowerLetters, TextNormalizer.keepC d = true := by decide
    exact hall _ hc

/-! ### chainOK machinery -/

theorem chainOK_cons (f : Char → Char → Bool) (p : Option Char) (c : Char) (r : Text) :
    chainOK f p (c :: r) =
      ((match p with
        | none => true
        | some a => f a c) && chainOK f (some c) r) := rfl

theorem chainOK_none_of_any (f : Char → Char → Bool) (t : Text) (p : Option Char)
    (h : chainOK f p t = true) : chainOK f none t = true := by
  cases t with
  | nil => rfl
  | cons c r =>
    rw [chainOK_cons] at h ⊢
    simp only [Bool.and_eq_true] at h ⊢
    exact ⟨trivial, h.2⟩

theorem chainOK_imp (f g : Char → Char → Bool)
    (hfg : ∀ a b, f a b = true → g a b = true) :
    ∀ (t : Text) (p : Option Char), chainOK f p t = true → chainOK g p t = true := by
  intro t
  induction t with
  | nil => intro p _; rfl
  | cons c r ih =>
    intro p h
    rw [chainOK_cons] at h ⊢
    simp only [Bool.and_eq_true] at h ⊢
    refine ⟨?_, ih (some c) h.2⟩
    match p with
    | none => rfl
    | some a => exact hfg a c h.1

theorem chainOK_append_left (f : Char → Char → Bool) :
    ∀ (s u : Text) (p : Option Char), chainOK f p (s ++ u) = true →
      chainOK f p s = true := by
  intro s
  induction s with
  | nil => intro u p _; rfl
  | cons c r ih =>
    intro u p h
    rw [List.cons_append, chainOK_cons] at h
    rw [chainOK_cons]
    simp only [Bool.and_eq_true] at h ⊢
    exact ⟨h.1, ih u (some c) h.2⟩

theorem chainOK_map_of (g : Char → Char) (f : Char → Char → Bool)
    (hg : ∀ a b, f a b = true → f (g a) (g b) = true) :
    ∀ (t : Text) (p : Option Char), chainOK f p t = true →
      chainOK f (p.map g) (t.map g) = true := by
  intro t
  induction t with
  | nil => intro p _; rfl
  | cons c r ih =>
    intro p h
    rw [chainOK_cons] at h
    rw [List.map_cons, chainOK_cons]
    simp only [Bool.and_eq_true] at h ⊢
    refine ⟨?_, ih (some c) h.2⟩
    match p with
    | none => rfl
    | some a => exact hg a c h.1

theorem pairsOK_dropWhile (f : Char → Char → Bool) (q : Char → Bool) :
    ∀ t : Text, pairsOK f t = true → pairsOK f (t.dropWhile q) = true := by
  intro t
  induction t with
  | nil => intro _; rfl
  | cons c r ih =>
    intro h
    rw [List.dropWhile_cons]
    split
    · refine ih ?_
      rw [pairsOK] at h ⊢
      rw [chainOK_cons] at h
      simp only [Bool.and_eq_true] at h
      exact chainOK_none_of_any f r (some c) h.2
    · exact h

/-! ### Membership bounds for the normalizer's functions -/

theorem mem_collapseWsGo :
    ∀ (t : Text) (b : Bool) (c : Char), c ∈ TextNormalizer.collapseWsGo b t →
      c ∈ t ∨ c = ' ' := by
  intro t
  induction t with
  | nil => intro b c h; exact absurd h (by simp [TextNormalizer.collapseWsGo])
  | cons d r ih =>
    intro b c h
    rw [TextNormalizer.collapseWsGo] at h
    split at h
    · split at h
      · rcases ih true c h with h | h
        · exact Or.inl (by simp [h])
        · exact Or.inr h
      · rcases List.mem_cons.mp h with h | h
        · exact Or.inr h
        · rcases ih true c h with h | h
          · exact Or.inl (by simp [h])
          · exact Or.inr h
    · rcases List.mem_cons.mp h with h | h
      · exact Or.inl (by simp [h])
      · rcases ih false c h with h | h
        · exact Or.inl (by simp [h])
        · exact Or.inr h

theorem mem_trimNlGo :
    ∀ (t : Text) (p : Nat) (b : Bool) (c : Char), c ∈ TextNormalizer.trimNlGo p b t →
      c ∈ t ∨ c = ' ' ∨ c = '\n' := by
  intro t
  induction t with
  | nil =>
    intro p b c h
    rw [TextNormalizer.trimNlGo] at h
    split at h
    · exact absurd h (by simp)
    · exact Or.inr (Or.inl (List.eq_of_mem_replicate h))
  | cons d r ih =>
    intro p b c h
    rw [TextNormalizer.trimNlGo] at h
    split at h
    · rcases ih (p + 1) b c h with h | h
      · exact Or.inl (by simp [h])
      · exact Or.inr h
    · split at h
      · rcases List.mem_cons.mp h with h | h
        · exact Or.inr (Or.inr h)
        · rcases ih 0 true c h with h | h
          · exact Or.inl (by simp [h])
          · exact Or.inr h
      · rcases List.mem_append.mp h with h | h
        · split at h
          · exact absurd h (by simp)
          · exact Or.inr (Or.inl (List.eq_of_mem_replicate h))
        · rcases List.mem_cons.mp h with h | h
          · exact Or.inl (by simp [h])
          · rcases ih 0 false c h with h | h
            · exact Or.inl (by simp [h])
            · exact Or.inr h

theorem mem_capNlGo (M : Nat) :
    ∀ (t : Text) (cnt : Nat) (c : Char), c ∈ TextNormalizer.capNlGo M cnt t →
      c ∈ t := by
  intro t
  induction t with
  | nil => intro cnt c h; exact absurd h (by simp [TextNormalizer.capNlGo])
  | cons d r ih =>
    intro cnt c h
    rw [TextNormalizer.capNlGo] at h
    split at h
    · rename_i hd
      split at h
      · rcases List.mem_cons.mp h with h | h
        · simp [h, hd]
        · exact List.mem_cons_of_mem _ (ih (cnt + 1) c h)
      · exact List.mem_cons_of_mem _ (ih (cnt + 1) c h)
    · rcases List.mem_cons.mp h with h | h
      · simp [h]
      · exact List.mem_cons_of_mem _ (ih 0 c h)

theorem replCRLF_cons_ne (c : Char) (r : Text)
    (hne : ∀ r1 : List Char, c = '\r' → r = '\n' :: r1 → False) :
    TextNormalizer.replCRLF (c :: r) = c :: TextNormalizer.replCRLF r := by
  rw [TextNormalizer.replCRLF.eq_def]
  split
  · rename_i heq
    exact absurd heq (by simp)
  · rename_i heq
    obtain ⟨h1, h2⟩ := List.cons_eq_cons.mp heq
    exact (hne _ h1 h2).elim
  · rename_i heq
    obtain ⟨h1, h2⟩ := List.cons_eq_cons.mp heq
    rw [h1, h2]

theorem mem_replCRLF :
    ∀ (t : Text) (c : Char), c ∈ TextNormalizer.replCRLF t → c ∈ t ∨ c = '\n' := by
  intro t
  induction t using TextNormalizer.replCRLF.induct with
  | case1 => intro c h; exact absurd h (by simp [TextNormalizer.replCRLF])
  | case2 r ih =>
    intro c h
    rw [TextNormalizer.replCRLF] at h
    rcases List.mem_cons.mp h with h | h
    · exact Or.inr h
    · rcases ih c h with h | h
      · exact Or.inl (by simp [h])
      · exact Or.inr h
  | case3 d r hne ih =>
    intro c h
    rw [replCRLF_cons_ne d r hne] at h
    rcases List.mem_cons.mp h with h | h
    · exact Or.inl (by simp [h])
    · rcases ih c h with h | h
      · exact Or.inl (by simp [h])
      · exact Or.inr h

theorem dropTrailingWs_pre : ∀ t : Text, ∃ u, dropTrailingWs t ++ u = t := by
  intro t
  induction t with
  | nil => exact ⟨[], rfl⟩
  | cons c r ih =>
    rw [dropTrailingWs]
    split
    · exact ⟨c :: r, rfl⟩
    · rcases ih with ⟨u, hu⟩
      exact ⟨u, by rw [List.cons_append, hu]⟩

theorem mem_dropTrailingWs (t : Text) (c : Char) (h : c ∈ dropTrailingWs t) :
    c ∈ t := by
  rcases dropTrailingWs_pre t with ⟨u, hu⟩
  rw [← hu]
  exact List.mem_append_left u h

theorem mem_dropWhileWs : ∀ (t : Text) (c : Char), c ∈ dropWhileWs t → c ∈ t := by
  intro t
  induction t with
  | nil => intro c h; exact h
  | cons d r ih =>
    intro c h
    rw [dropWhileWs, List.dropWhile_cons] at h
    split at h
    · exact List.mem_cons_of_mem _ (ih c h)
    · exact h

theorem mem_pyStrip (t : Text) (c : Char) (h : c ∈ pyStrip t) : c ∈ t := by
  rw [pyStrip] at h
  exact mem_dropWhileWs t c (mem_dropTrailingWs _ c h)

/-! ### Identity of each normalization step on already-normalized text -/

theorem map_id_of (f : Char → Char) :
    ∀ t : Text, (∀ c ∈ t, f c = c) → t.map f = t := by
  intro t
  induction t with
  | nil => intro _; rfl
  | cons c r ih =>
    intro h
    rw [List.map_cons, h c (by simp), ih (fun d hd => h d (by simp [hd]))]

theorem replCRLF_of_no_cr : ∀ t : Text, '\r' ∉ t → TextNormalizer.replCRLF t = t := by
  intro t
  induction t using TextNormalizer.replCRLF.induct with
  | case1 => intro _; rfl
  | case2 r ih => intro h; exact absurd (by simp) h
  | case3 d r hne ih =>
    intro h
    simp only [List.mem_cons, not_or] at h
    rw [replCRLF_cons_ne d r hne, ih h.2]

theorem normalizeLineBreaks_id (t : Text) (h : '\r' ∉ t) :
    TextNormalizer.normalizeLineBreaks t = t := by
  rw [TextNormalizer.normalizeLineBreaks, replCRLF_of_no_cr t h]
  refine map_id_of _ t ?_
  intro c hc
  rw [if_neg]
  intro he
  exact h (he ▸ hc)

theorem chainOK_head (f : Char → Char → Bool) (a : Char) (t : Text) (x : Char)
    (hch : chainOK f (some a) t = true) (hx : t.head? = some x) : f a x = true := by
  cases t with
  | nil => exact absurd hx (by simp)
  | cons c r =>
    rw [chainOK_cons] at hch
    simp only [Bool.and_eq_true] at hch
    have : c = x := by simpa using hx
    exact this ▸ hch.1

theorem collapseWsGo_id :
    ∀ (t : Text) (b : Bool), '\t' ∉ t → pairsOK gPair t = true →
      (b = true → t.head? ≠ some ' ') →
      TextNormalizer.collapseWsGo b t = t := by
  intro t
  induction t with
  | nil => intro b _ _ _; rfl
  | cons c r ih =>
    intro b htab hpairs hb
    simp only [List.mem_cons, not_or] at htab
    rw [pairsOK, chainOK_cons] at hpairs
    simp only [Bool.and_eq_true] at hpairs
    have hpr : pairsOK gPair r = true := chainOK_none_of_any gPair r (some c) hpairs.2
    rw [TextNormalizer.collapseWsGo]
    by_cases hsp : c = ' ' || c = '\t'
    · have hc : c = ' ' := by
        rcases Bool.or_eq_true_iff.mp hsp with h | h
        · exact of_decide_eq_true h
        · exact absurd (of_decide_eq_true h) (fun he => htab.1 he.symm)
      have hbf : b = false := by
        cases b with
        | false => rfl
        | true => exact absurd (by rw [hc]; rfl) (hb rfl)
      rw [if_pos hsp, hbf]
      show (' ' :: TextNormalizer.collapseWsGo true r) = c :: r
      rw [hc]
      congr 1
      refine ih true (fun hm => htab.2 hm) hpr ?_
      intro _ hhead
      have := chainOK_head gPair c r ' ' hpairs.2 hhead
      rw [hc] at this
      exact absurd this (by decide)
    · rw [if_neg hsp]
      congr 1
      exact ih false (fun hm => htab.2 hm) hpr (fun hf => absurd hf (by simp))

theorem collapseWs_id (t : Text) (htab : '\t' ∉ t) (hpairs : pairsOK gPair t = true) :
    TextNormalizer.collapseWs t = t :=
  collapseWsGo_id t false htab hpairs (fun hf => absurd hf (by simp))

theorem trimNlGo_id :
    ∀ (t : Text) (p : Nat) (b : Bool), pairsOK gPair t = true →
      (b = true → p = 0 ∧ t.head? ≠ some ' ') →
      (0 < p → t.head? ≠ some '\n') →
      TextNormalizer.trimNlGo p b t = List.replicate p ' ' ++ t := by
  intro t
  induction t with
  | nil =>
    intro p b _ hb _
    rw [TextNormalizer.trimNlGo]
    cases b with
    | false => simp
    | true => rw [(hb rfl).1]; simp
  | cons c r ih =>
    intro p b hpairs hb hp
    rw [pairsOK, chainOK_cons] at hpairs
    simp only [Bool.and_eq_true] at hpairs
    have hpr : pairsOK gPair r = true := chainOK_none_of_any gPair r (some c) hpairs.2
    rw [TextNormalizer.trimNlGo]
    by_cases hsp : c = ' '
    · have hbf : b = false := by
        cases b with
        | false => rfl
        | true => exact absurd (by rw [hsp]; rfl) ((hb rfl).2)
      rw [if_pos hsp, hbf]
      have hnext : r.head? ≠ some '\n' := by
        intro hhead
        have := chainOK_head gPair c r '\n' hpairs.2 hhead
        rw [hsp] at this
        exact absurd this (by decide)
      rw [ih (p + 1) false hpr (fun hf => absurd hf (by simp)) (fun _ => hnext)]
      rw [hsp, List.replicate_succ']
      simp
    · rw [if_neg hsp]
      by_cases hnl : c = '\n'
      · have hp0 : p = 0 := by
          by_contra hne
          exact absurd (by simp [hnl]) (hp (Nat.pos_of_ne_zero hne))
        rw [if_pos hnl, hp0]
        have hnext : r.head? ≠ some ' ' := by
          intro hhead
          have := chainOK_head gPair c r ' ' hpairs.2 hhead
          rw [hnl] at this
          exact absurd this (by decide)
        rw [ih 0 true hpr (fun _ => ⟨rfl, hnext⟩) (fun hf => absurd hf (by simp))]
        rw [hnl]
        simp
      · rw [if_neg hnl]
        rw [ih 0 false hpr (fun hf => absurd hf (by simp)) (fun hf => absurd hf (by simp))]
        cases b with
        | false => simp
        | true => rw [(hb rfl).1]; simp


set_option maxRecDepth 200000 in
/-- Evaluation of the full pipeline on the spec's end-to-end input. -/
theorem anonymize_c1_eval : PrivacyAwareAnonymizer.anonymize [] c1Input = c1Output := by
  decide

/-! ### More normalization-step identity lemmas -/

theorem removeExtraWhitespace_id (t : Text) (htab : '\t' ∉ t)
    (hpairs : pairsOK gPair t = true) :
    TextNormalizer.removeExtraWhitespace t = t := by
  rw [TextNormalizer.removeExtraWhitespace, collapseWs_id t htab hpairs,
    trimNlGo_id t 0 false hpairs (fun hf => absurd hf (by simp))
      (fun hf => absurd hf (by simp))]
  rfl

theorem leadingNl_cons_nl (r : Text) : leadingNl ('\n' :: r) = leadingNl r + 1 := by
  rw [leadingNl, countLeading, if_pos (by decide)]
  rfl

theorem leadingNl_cons_ne (c : Char) (r : Text) (h : c ≠ '\n') :
    leadingNl (c :: r) = 0 := by
  rw [leadingNl, countLeading, if_neg (by simp [h])]

theorem hasNlRun_cons (M : Nat) (c : Char) (r : Text) :
    hasNlRun M (c :: r) =
      (decide (M + 1 ≤ leadingNl (c :: r)) || hasNlRun M r) := rfl

theorem leadingNl_le_of_no_run (M : Nat) (t : Text) (h : hasNlRun M t = false) :
    leadingNl t ≤ M := by
  cases t with
  | nil => exact Nat.zero_le M
  | cons c r =>
    rw [hasNlRun_cons] at h
    simp only [Bool.or_eq_false_iff, decide_eq_false_iff_not] at h
    omega

theorem capNlGo_id (M : Nat) :
    ∀ (t : Text) (cnt : Nat), hasNlRun M t = false → cnt + leadingNl t ≤ M →
      TextNormalizer.capNlGo M cnt t = t := by
  intro t
  induction t with
  | nil => intro cnt _ _; rfl
  | cons c r ih =>
    intro cnt hrun hcnt
    rw [hasNlRun_cons] at hrun
    simp only [Bool.or_eq_false_iff] at hrun
    rw [TextNormalizer.capNlGo]
    by_cases hnl : c = '\n'
    · subst hnl
      rw [leadingNl_cons_nl] at hcnt
      rw [if_pos rfl, if_pos (by omega)]
      congr 1
      exact ih (cnt + 1) hrun.2 (by omega)
    · rw [if_neg hnl]
      congr 1
      exact ih 0 hrun.2
        (by simpa using leadingNl_le_of_no_run M r hrun.2)

theorem capNl_id (M : Nat) (t : Text) (h : hasNlRun M t = false) :
    TextNormalizer.capNl M t = t :=
  capNlGo_id M t 0 h (by simpa using leadingNl_le_of_no_run M t h)

theorem head_dropWhileWs (t : Text) (c : Char) (h : (dropWhileWs t).head? = some c) :
    isWsC c = false := by
  induction t with
  | nil => exact absurd h (by simp [dropWhileWs])
  | cons d r ih =>
    rw [dropWhileWs, List.dropWhile_cons] at h
    split at h
    · exact ih (by rw [dropWhileWs]; exact h)
    · rename_i hd
      have : d = c := by simpa using h
      rw [← this]
      exact Bool.of_not_eq_true hd

theorem dropWhileWs_id_of (t : Text)
    (h : ∀ c, t.head? = some c → isWsC c = false) : dropWhileWs t = t := by
  cases t with
  | nil => rfl
  | cons c r =>
    rw [dropWhileWs, List.dropWhile_cons, if_neg]
    simp [h c rfl]

theorem dropTrailingWs_idem : ∀ t : Text, dropTrailingWs (dropTrailingWs t) = dropTrailingWs t := by
  intro t
  induction t with
  | nil => rfl
  | cons c r ih =>
    rw [dropTrailingWs]
    split
    · rfl
    · rename_i hcond
      rw [dropTrailingWs, ih]
      rw [if_neg hcond]

theorem head_dropTrailingWs (t : Text) (c : Char)
    (h : (dropTrailingWs t).head? = some c) : t.head? = some c := by
  rcases dropTrailingWs_pre t with ⟨u, hu⟩
  rcases he : dropTrailingWs t with _ | ⟨d, s⟩
  · rw [he] at h; exact absurd h (by simp)
  · rw [he] at h hu
    rw [← hu]
    simpa using h

theorem pyStrip_idem (t : Text) : pyStrip (pyStrip t) = pyStrip t := by
  rw [pyStrip, pyStrip]
  have h1 : dropWhileWs (dropTrailingWs (dropWhileWs t)) = dropTrailingWs (dropWhileWs t) := by
    refine dropWhileWs_id_of _ ?_
    intro c hc
    exact head_dropWhileWs t c (head_dropTrailingWs _ c hc)
  rw [h1, dropTrailingWs_idem]

/-! ### The URL and email passes are identity without a colon / at sign -/

theorem mem_of_isPrefixOf :
    ∀ (l s : Text), l.isPrefixOf s = true → ∀ c ∈ l, c ∈ s := by
  intro l
  induction l with
  | nil => intro s _ c hc; exact absurd hc (by simp)
  | cons a l ih =>
    intro s hpre c hc
    cases s with
    | nil => exact absurd hpre (by simp [List.isPrefixOf])
    | cons b s =>
      rw [List.isPrefixOf_cons₂] at hpre
      simp only [Bool.and_eq_true, beq_iff_eq] at hpre
      rcases List.mem_cons.mp hc with h | h
      · rw [h, ← hpre.1]; simp
      · exact List.mem_cons_of_mem _ (ih s hpre.2 c h)

theorem urlCoreLen_none (s : Text) (h : ':' ∉ s) :
    TextNormalizer.urlCoreLen s = none := by
  rw [TextNormalizer.urlCoreLen]
  rw [if_neg (fun hpre => h (mem_of_isPrefixOf _ s hpre ':' (by decide))),
    if_neg (fun hpre => h (mem_of_isPrefixOf _ s hpre ':' (by decide)))]

theorem urlSubGo_id :
    ∀ (fuel : Nat) (pend s : Text), ':' ∉ s →
      TextNormalizer.urlSubGo fuel pend s = pend.reverse ++ s := by
  intro fuel
  induction fuel with
  | zero => intro pend s _; rfl
  | succ fuel ih =>
    intro pend s h
    match s with
    | [] => simp [TextNormalizer.urlSubGo]
    | c :: r =>
      simp only [List.mem_cons, not_or] at h
      rw [TextNormalizer.urlSubGo]
      split
      · rw [ih (c :: pend) r h.2]
        simp
      · rw [urlCoreLen_none (c :: r)
          (by intro hm; rcases List.mem_cons.mp hm with he | he; exacts [h.1 he, h.2 he])]
        rw [ih [] r h.2]
        simp

theorem removeUrls_id (t : Text) (h : ':' ∉ t) (hstrip : pyStrip t = t) :
    TextNormalizer.removeUrls t = t := by
  rw [TextNormalizer.removeUrls, urlSubGo_id t.length [] t h]
  simpa using hstrip

theorem flatMap_eq_nil_of (f : Text → List Text) :
    ∀ l : List Text, (∀ x ∈ l, f x = []) → l.flatMap f = [] := by
  intro l
  induction l with
  | nil => intro _; rfl
  | cons a r ih =>
    intro h
    rw [List.flatMap_cons, h a (by simp), List.nil_append]
    exact ih (fun x hx => h x (by simp [hx]))

theorem repGE_mem_drop (p : Char → Bool) (lo : Nat) (s : Text) :
    ∀ s1 ∈ repGE p lo s, ∃ k, s1 = s.drop k := by
  intro s1 h
  rw [repGE] at h
  rcases List.mem_filterMap.mp h with ⟨k, _, hk⟩
  split at hk
  · exact ⟨k, by simpa using hk.symm⟩
  · exact absurd hk (by simp)

theorem emailCore_nil_of_no_at (s : Text) (h : '@' ∉ s) :
    TextNormalizer.emailCore s = [] := by
  rw [TextNormalizer.emailCore, seqM]
  refine flatMap_eq_nil_of _ _ ?_
  intro s1 hs1
  rcases repGE_mem_drop _ _ s s1 hs1 with ⟨k, hk⟩
  rw [seqM]
  refine flatMap_eq_nil_of _ _ ?_
  intro s2 hs2
  exfalso
  cases hs1' : s1 with
  | nil => rw [hs1'] at hs2; simp [eatCh, eatIf] at hs2
  | cons d r2 =>
    rw [hs1'] at hs2
    rw [eatCh, eatIf] at hs2
    split at hs2
    · rename_i hd
      have hd' : d = '@' := of_decide_eq_true hd
      refine h ?_
      rw [← hd']
      have hmem : d ∈ s.drop k := by rw [← hk, hs1']; simp
      exact List.mem_of_mem_drop hmem
    · exact absurd hs2 (by simp)

theorem tryEmailCore_none (s : Text) (h : '@' ∉ s) (b : Bool) :
    TextNormalizer.tryEmailCore b s = none := by
  rw [TextNormalizer.tryEmailCore, emailCore_nil_of_no_at s h]
  split <;> rfl

theorem emailSubGo_id :
    ∀ (fuel : Nat) (prevW : Bool) (pend s : Text), '@' ∉ s →
      TextNormalizer.emailSubGo fuel prevW pend s = pend.reverse ++ s := by
  intro fuel
  induction fuel with
  | zero => intro prevW pend s _; rfl
  | succ fuel ih =>
    intro prevW pend s h
    match s with
    | [] => simp [TextNormalizer.emailSubGo]
    | c :: r =>
      simp only [List.mem_cons, not_or] at h
      rw [TextNormalizer.emailSubGo]
      split
      · rw [ih false (c :: pend) r h.2]
        simp
      · rw [tryEmailCore_none (c :: r)
          (by intro hm; rcases List.mem_cons.mp hm with he | he; exacts [h.1 he, h.2 he])]
        rw [ih (isWordC c) [] r h.2]
        simp

theorem removeEmails_id (t : Text) (h : '@' ∉ t) (hstrip : pyStrip t = t) :
    TextNormalizer.removeEmails t = t := by
  rw [TextNormalizer.removeEmails, emailSubGo_id t.length false [] t h]
  simpa using hstrip

/-! ### Establishment of the invariants along the first pass -/

theorem not_cr_normalizeLineBreaks (t : Text) :
    '\r' ∉ TextNormalizer.normalizeLineBreaks t := by
  intro h
  rw [TextNormalizer.normalizeLineBreaks] at h
  rcases List.mem_map.mp h with ⟨c, _, hc⟩
  by_cases he : c = '\r'
  · rw [if_pos he] at hc; exact absurd hc (by decide)
  · rw [if_neg he] at hc; exact he hc

theorem not_tab_collapseWsGo : ∀ (t : Text) (b : Bool), '\t' ∉ TextNormalizer.collapseWsGo b t := by
  intro t
  induction t with
  | nil => intro b h; rw [TextNormalizer.collapseWsGo] at h; exact absurd h (by simp)
  | cons c r ih =>
    intro b h
    rw [TextNormalizer.collapseWsGo] at h
    split at h
    · split at h
      · exact ih true h
      · rcases List.mem_cons.mp h with h | h
        · exact absurd h (by decide)
        · exact ih true h
    · rename_i hc
      rcases List.mem_cons.mp h with h | h
      · rw [← h] at hc
        exact hc (by decide)
      · exact ih false h

theorem collapse_chain (t : Text) :
    (∀ p : Option Char, p ≠ some ' ' →
      chainOK (fun a b => !((a == ' ') && (b == ' '))) p
        (TextNormalizer.collapseWsGo false t) = true) ∧
    chainOK (fun a b => !((a == ' ') && (b == ' '))) (some ' ')
      (TextNormalizer.collapseWsGo true t) = true := by
  induction t with
  | nil => exact ⟨fun p _ => rfl, rfl⟩
  | cons c r ih =>
    constructor
    · intro p hp
      rw [TextNormalizer.collapseWsGo]
      split
      · rw [if_neg (by decide)]
        rw [chainOK_cons]
        simp only [Bool.and_eq_true]
        refine ⟨?_, ih.2⟩
        match p, hp with
        | none, _ => trivial
        | some a, hp =>
          simp only [Bool.not_eq_eq_eq_not, Bool.not_true, Bool.and_eq_false_iff]
          left
          simp only [beq_eq_false_iff_ne, ne_eq]
          intro he
          exact hp (by rw [he])
      · rename_i hc
        rw [chainOK_cons]
        simp only [Bool.and_eq_true]
        refine ⟨?_, ih.1 (some c) (fun he => hc (by simp [Option.some.injEq] at he; simp [he]))⟩
        match p with
        | none => trivial
        | some a =>
          simp only [Bool.not_eq_eq_eq_not, Bool.not_true, Bool.and_eq_false_iff]
          right
          simp only [beq_eq_false_iff_ne, ne_eq]
          intro he
          exact hc (by simp [he])
    · rw [TextNormalizer.collapseWsGo]
      split
      · rw [if_pos rfl]
        exact ih.2
      · rename_i hc
        rw [chainOK_cons]
        simp only [Bool.and_eq_true]
        refine ⟨?_, ih.1 (some c) (fun he => hc (by simp [Option.some.injEq] at he; simp [he]))⟩
        simp only [Bool.not_eq_eq_eq_not, Bool.not_true, Bool.and_eq_false_iff]
        right
        simp only [beq_eq_false_iff_ne, ne_eq]
        intro he
        exact hc (by simp [he])

theorem collapseWs_nodbl (t : Text) :
    pairsOK (fun a b => !((a == ' ') && (b == ' '))) (TextNormalizer.collapseWs t) = true :=
  (collapse_chain t).1 none (by simp)

theorem gPair_right_other (a c : Char) (h1 : c ≠ ' ') (h2 : c ≠ '\n') :
    gPair a c = true := by
  rw [gPair]; simp [h1, h2]

theorem gPair_right_nl (a : Char) (ha : a ≠ ' ') : gPair a '\n' = true := by
  rw [gPair]; simp [ha]

theorem gPair_right_sp (a : Char) (h1 : a ≠ ' ') (h2 : a ≠ '\n') :
    gPair a ' ' = true := by
  rw [gPair]; simp [h1, h2]

theorem chainOK_cons_intro (f : Char → Char → Bool) (prev : Option Char) (c : Char)
    (r : Text) (h1 : ∀ a, prev = some a → f a c = true)
    (h2 : chainOK f (some c) r = true) : chainOK f prev (c :: r) = true := by
  rw [chainOK_cons]
  simp only [Bool.and_eq_true]
  refine ⟨?_, h2⟩
  cases prev with
  | none => trivial
  | some a => exact h1 a rfl

/-- Output pair-invariant of the newline-adjacent-space trimmer: the
output has no double space and no space adjacent to a newline.  p
counts pending spaces (at most one, since the input has no double
space), b records being right after a newline, prev is the last
emitted character. -/
theorem trimNl_chainG :
    ∀ (t : Text) (p : Nat) (b : Bool) (prev : Option Char),
      pairsOK (fun a b => !((a == ' ') && (b == ' '))) t = true →
      p ≤ 1 → (p = 1 → t.head? ≠ some ' ') →
      (b = true → prev = some '\n') →
      (b = false → prev ≠ some ' ' ∧ prev ≠ some '\n') →
      chainOK gPair prev (TextNormalizer.trimNlGo p b t) = true := by
  intro t
  induction t with
  | nil =>
    intro p b prev _ hp h1 hbt hbf
    rw [TextNormalizer.trimNlGo]
    cases b with
    | true => rw [if_pos rfl]; rfl
    | false =>
      rw [if_neg (by decide)]
      match p, hp with
      | 0, _ => rfl
      | 1, _ =>
        show chainOK gPair prev [' '] = true
        refine chainOK_cons_intro gPair prev ' ' [] ?_ rfl
        intro a ha
        rcases hbf rfl with ⟨hs, hn⟩
        exact gPair_right_sp a (fun he => hs (by rw [ha, he]))
          (fun he => hn (by rw [ha, he]))
  | cons c r ih =>
    intro p b prev hpairs hp h1 hbt hbf
    rw [pairsOK, chainOK_cons] at hpairs
    simp only [Bool.and_eq_true] at hpairs
    have hpr : pairsOK (fun a b => !((a == ' ') && (b == ' '))) r = true :=
      chainOK_none_of_any _ r (some c) hpairs.2
    rw [TextNormalizer.trimNlGo]
    by_cases hsp : c = ' '
    · rw [if_pos hsp]
      have hp0 : p = 0 := by
        rcases Nat.lt_or_ge p 1 with h | h
        · omega
        · exact absurd (by rw [hsp]; rfl) (h1 (by omega))
      subst hp0
      refine ih 1 b prev hpr (by omega) ?_ hbt hbf
      intro _ hhead
      have := chainOK_head _ c r ' ' hpairs.2 hhead
      rw [hsp] at this
      exact absurd this (by decide)
    · rw [if_neg hsp]
      by_cases hnl : c = '\n'
      · rw [if_pos hnl]
        refine chainOK_cons_intro gPair prev '\n' _ ?_ ?_
        · intro a ha
          cases b with
          | true =>
            have := hbt rfl
            rw [ha] at this
            have ha' : a = '\n' := by simpa using this
            rw [ha']
            decide
          | false =>
            refine gPair_right_nl a ?_
            intro he
            exact (hbf rfl).1 (by rw [ha, he])
        · exact ih 0 true (some '\n') hpr (by omega) (by omega)
            (fun _ => rfl) (fun hf => absurd hf (by simp))
      · rw [if_neg hnl]
        have hrec : chainOK gPair (some c) (TextNormalizer.trimNlGo 0 false r) = true :=
          ih 0 false (some c) hpr (by omega) (by omega)
            (fun hf => absurd hf (by simp))
            (fun _ => ⟨by simpa using hsp, by simpa using hnl⟩)
        cases b with
        | true =>
          rw [if_pos rfl, List.nil_append]
          refine chainOK_cons_intro gPair prev c _ ?_ hrec
          intro a ha
          have := hbt rfl
          rw [ha] at this
          have ha' : a = '\n' := by simpa using this
          rw [ha']
          exact gPair_right_other '\n' c hsp hnl
        | false =>
          rw [if_neg (by decide)]
          match p, hp with
          | 0, _ =>
            show chainOK gPair prev (c :: TextNormalizer.trimNlGo 0 false r) = true
            refine chainOK_cons_intro gPair prev c _ ?_ hrec
            intro a ha
            exact gPair_right_other a c hsp hnl
          | 1, _ =>
            show chainOK gPair prev (' ' :: c :: TextNormalizer.trimNlGo 0 false r) = true
            refine chainOK_cons_intro gPair prev ' ' _ ?_ ?_
            · intro a ha
              rcases hbf rfl with ⟨hs, hn⟩
              exact gPair_right_sp a (fun he => hs (by rw [ha, he]))
                (fun he => hn (by rw [ha, he]))
            · refine chainOK_cons_intro gPair (some ' ') c _ ?_ hrec
              intro a ha
              exact gPair_right_other a c hsp hnl

/-- The whitespace pass establishes the pair invariant. -/
theorem removeExtraWhitespace_chain (t : Text) :
    pairsOK gPair (TextNormalizer.removeExtraWhitespace t) = true := by
  rw [TextNormalizer.removeExtraWhitespace]
  exact trimNl_chainG (TextNormalizer.collapseWs t) 0 false none
    (collapseWs_nodbl t) (by omega) (by omega)
    (fun hf => absurd hf (by simp)) (fun _ => ⟨by simp, by simp⟩)

theorem not_tab_removeExtraWhitespace (t : Text) :
    '\t' ∉ TextNormalizer.removeExtraWhitespace t := by
  intro h
  rw [TextNormalizer.removeExtraWhitespace] at h
  rcases mem_trimNlGo _ 0 false '\t' h with h | h | h
  · exact not_tab_collapseWsGo t false h
  · exact absurd h (by decide)
  · exact absurd h (by decide)

/-! ### Preservation of the invariants through the later steps -/

theorem toLowerC_beq (c d : Char) (h1 : d ∉ lowerLetters) (h2 : toLowerC d = d) :
    (toLowerC c == d) = (c == d) := by
  by_cases h : c = d
  · subst h
    rw [h2]
  · have hne : toLowerC c ≠ d := fun he => h ((toLowerC_eq_iff c d h1 h2).mp he)
    simp [h, hne]

theorem gPair_toLower (a b : Char) :
    gPair (toLowerC a) (toLowerC b) = gPair a b := by
  rw [gPair, gPair,
    toLowerC_beq a ' ' (by decide) (by decide),
    toLowerC_beq b ' ' (by decide) (by decide),
    toLowerC_beq a '\n' (by decide) (by decide),
    toLowerC_beq b '\n' (by decide) (by decide)]

theorem pairsOK_map_toLower (t : Text) (h : pairsOK gPair t = true) :
    pairsOK gPair (t.map toLowerC) = true := by
  have := chainOK_map_of toLowerC gPair
    (fun a b hab => by rw [gPair_toLower]; exact hab) t none h
  simpa using this

theorem chainOK_capNlGo (f : Char → Char → Bool) (M : Nat) (hM : 1 ≤ M) :
    ∀ (t : Text) (cnt : Nat) (prev : Option Char),
      (cnt = 0 ∨ prev = some '\n') → chainOK f prev t = true →
      chainOK f prev (TextNormalizer.capNlGo M cnt t) = true := by
  intro t
  induction t with
  | nil => intro cnt prev _ _; rfl
  | cons c r ih =>
    intro cnt prev hside h
    rw [chainOK_cons] at h
    simp only [Bool.and_eq_true] at h
    rw [TextNormalizer.capNlGo]
    by_cases hnl : c = '\n'
    · subst hnl
      rw [if_pos rfl]
      by_cases hcnt : cnt < M
      · rw [if_pos hcnt]
        refine chainOK_cons_intro f prev '\n' _ (fun a ha => ?_) ?_
        · rw [ha] at h
          exact h.1
        · exact ih (cnt + 1) (some '\n') (Or.inr rfl) h.2
      · rw [if_neg hcnt]
        have hprev : prev = some '\n' := by
          rcases hside with h0 | hp
          · omega
          · exact hp
        rw [hprev]
        exact ih (cnt + 1) (some '\n') (Or.inr rfl) (hprev ▸ h.2)
    · rw [if_neg hnl]
      refine chainOK_cons_intro f prev c _ (fun a ha => ?_) ?_
      · rw [ha] at h
        exact h.1
      · exact ih 0 (some c) (Or.inl rfl) h.2

theorem pairsOK_capNl (f : Char → Char → Bool) (M : Nat) (hM : 1 ≤ M) (t : Text)
    (h : pairsOK f t = true) : pairsOK f (TextNormalizer.capNl M t) = true :=
  chainOK_capNlGo f M hM t 0 none (Or.inl rfl) h

theorem pairsOK_dropTrailingWs (f : Char → Char → Bool) (t : Text)
    (h : pairsOK f t = true) : pairsOK f (dropTrailingWs t) = true := by
  rcases dropTrailingWs_pre t with ⟨u, hu⟩
  exact chainOK_append_left f (dropTrailingWs t) u none (by rw [hu]; exact h)

theorem pairsOK_pyStrip (f : Char → Char → Bool) (t : Text)
    (h : pairsOK f t = true) : pairsOK f (pyStrip t) = true := by
  rw [pyStrip]
  exact pairsOK_dropTrailingWs f _ (pairsOK_dropWhile f isWsC t h)

/-- The newline cap establishes: no run longer than M, and the leading
run leaves room for the cnt newlines already emitted. -/
theorem capNlGo_estab (M : Nat) :
    ∀ (t : Text) (cnt : Nat),
      leadingNl (TextNormalizer.capNlGo M cnt t) + min cnt M ≤ M ∧
      hasNlRun M (TextNormalizer.capNlGo M cnt t) = false := by
  intro t
  induction t with
  | nil => intro cnt; constructor
           · show leadingNl [] + min cnt M ≤ M
             have : leadingNl [] = 0 := rfl
             omega
           · rfl
  | cons c r ih =>
    intro cnt
    rw [TextNormalizer.capNlGo]
    by_cases hnl : c = '\n'
    · subst hnl
      rw [if_pos rfl]
      by_cases hcnt : cnt < M
      · rw [if_pos hcnt]
        rcases ih (cnt + 1) with ⟨ih1, ih2⟩
        constructor
        · rw [leadingNl_cons_nl]
          omega
        · rw [hasNlRun_cons]
          simp only [Bool.or_eq_false_iff, decide_eq_false_iff_not]
          constructor
          · rw [leadingNl_cons_nl]
            omega
          · exact ih2
      · rw [if_neg hcnt]
        rcases ih (cnt + 1) with ⟨ih1, ih2⟩
        exact ⟨by omega, ih2⟩
    · rw [if_neg hnl]
      rcases ih 0 with ⟨ih1, ih2⟩
      constructor
      · rw [leadingNl_cons_ne c _ hnl]
        omega
      · rw [hasNlRun_cons]
        simp only [Bool.or_eq_false_iff, decide_eq_false_iff_not]
        constructor
        · rw [leadingNl_cons_ne c _ hnl]
          omega
        · exact ih2

theorem hasNlRun_capNl (M : Nat) (t : Text) :
    hasNlRun M (TextNormalizer.capNl M t) = false :=
  (capNlGo_estab M t 0).2

theorem hasNlRun_dropWhile (M : Nat) (q : Char → Bool) :
    ∀ t : Text, hasNlRun M t = false → hasNlRun M (t.dropWhile q) = false := by
  intro t
  induction t with
  | nil => intro h; exact h
  | cons c r ih =>
    intro h
    rw [hasNlRun_cons] at h
    simp only [Bool.or_eq_false_iff] at h
    rw [List.dropWhile_cons]
    split
    · exact ih h.2
    · rw [hasNlRun_cons]
      simp only [Bool.or_eq_false_iff]
      exact h

theorem leadingNl_append_le (s u : Text) : ∀ p, countLeading p s ≤ countLeading p (s ++ u) := by
  induction s with
  | nil => intro p; exact Nat.zero_le _
  | cons c r ih =>
    intro p
    rw [List.cons_append, countLeading, countLeading]
    split
    · have := ih p
      omega
    · exact Nat.le_refl 0

theorem hasNlRun_append_left (M : Nat) :
    ∀ (s u : Text), hasNlRun M (s ++ u) = false → hasNlRun M s = false := by
  intro s
  induction s with
  | nil => intro u _; rfl
  | cons c r ih =>
    intro u h
    rw [List.cons_append, hasNlRun_cons] at h
    simp only [Bool.or_eq_false_iff, decide_eq_false_iff_not] at h
    rw [hasNlRun_cons]
    simp only [Bool.or_eq_false_iff, decide_eq_false_iff_not]
    constructor
    · have := leadingNl_append_le (c :: r) u (fun x => x = '\n')
      rw [leadingNl] at h ⊢
      rw [← List.cons_append] at h
      omega
    · exact ih u h.2

theorem hasNlRun_pyStrip (M : Nat) (t : Text) (h : hasNlRun M t = false) :
    hasNlRun M (pyStrip t) = false := by
  rw [pyStrip]
  rcases dropTrailingWs_pre (dropWhileWs t) with ⟨u, hu⟩
  refine hasNlRun_append_left M _ u ?_
  rw [hu]
  exact hasNlRun_dropWhile M isWsC t h

theorem one_le_capFloor (m : Int) : 1 ≤ TextNormalizer.capFloor m := by
  rw [TextNormalizer.capFloor]
  split
  · decide
  · rename_i h
    omega

/-! ### The invariants of normalize's output, and idempotence -/

theorem condStep_pos (f : Text → Text) (t : Text) {flag : Bool} (h : flag = true) :
    TextNormalizer.condStep flag f t = f t := by
  rw [TextNormalizer.condStep, if_pos h]

theorem condStep_neg (f : Text → Text) (t : Text) {flag : Bool} (h : flag = false) :
    TextNormalizer.condStep flag f t = t := by
  rw [TextNormalizer.condStep, if_neg (by simp [h])]

theorem filter_id_of (p : Char → Bool) :
    ∀ t : Text, (∀ c ∈ t, p c = true) → t.filter p = t := by
  intro t
  induction t with
  | nil => intro _; rfl
  | cons c r ih =>
    intro h
    rw [List.filter_cons, if_pos (h c (by simp)), ih (fun d hd => h d (by simp [hd]))]

theorem mem_removeExtraWhitespace (x : Text) (c : Char)
    (h : c ∈ TextNormalizer.removeExtraWhitespace x) : c ∈ x ∨ c = ' ' ∨ c = '\n' := by
  rw [TextNormalizer.removeExtraWhitespace] at h
  rcases mem_trimNlGo _ 0 false c h with h | h
  · rcases mem_collapseWsGo x false c h with h | h
    · exact Or.inl h
    · exact Or.inr (Or.inl h)
  · exact Or.inr h

theorem mem_limitNl (m : Int) (x : Text) (c : Char)
    (h : c ∈ TextNormalizer.limitConsecutiveNewlines m x) : c ∈ x := by
  rw [TextNormalizer.limitConsecutiveNewlines, TextNormalizer.capNl] at h
  exact mem_capNlGo _ x 0 c h

/-- The invariants that hold of every normalize output: it is stripped,
has no newline run beyond the cap, and (depending on the enabled flags)
contains only kept characters, satisfies the whitespace pair
invariant, is lowercase-fixed, and is free of carriage returns. -/
theorem normalize_invariants (cfg : NormCfg) (t : Text) :
    pyStrip (TextNormalizer.normalize cfg t) = TextNormalizer.normalize cfg t ∧
    hasNlRun (TextNormalizer.capFloor cfg.max_consecutive_newlines)
      (TextNormalizer.normalize cfg t) = false ∧
    (cfg.remove_special_chars = true →
      ∀ c ∈ TextNormalizer.normalize cfg t, TextNormalizer.keepC c = true) ∧
    (cfg.remove_extra_whitespace = true →
      pairsOK gPair (TextNormalizer.normalize cfg t) = true ∧
      '\t' ∉ TextNormalizer.normalize cfg t) ∧
    (cfg.lowercase = true →
      ∀ c ∈ TextNormalizer.normalize cfg t, toLowerC c = c) ∧
    ((cfg.normalize_line_breaks = true ∧ cfg.remove_urls = false ∧
        cfg.remove_emails = false) ∨ cfg.remove_special_chars = true →
      '\r' ∉ TextNormalizer.normalize cfg t) := by
  by_cases ht : t = []
  · rw [TextNormalizer.normalize, if_pos ht]
    refine ⟨rfl, rfl, ?_, ?_, ?_, ?_⟩
    · intro _ c hc; exact absurd hc (by simp)
    · intro _; exact ⟨rfl, by simp⟩
    · intro _ c hc; exact absurd hc (by simp)
    · intro _; simp
  · rw [TextNormalizer.normalize, if_neg ht, TextNormalizer.normalizeCore]
    set n1 := TextNormalizer.condStep cfg.normalize_line_breaks
      TextNormalizer.normalizeLineBreaks t with hn1
    set n2 := TextNormalizer.condStep cfg.remove_urls TextNormalizer.removeUrls n1 with hn2
    set n3 := TextNormalizer.condStep cfg.remove_emails TextNormalizer.removeEmails n2 with hn3
    set n4 := TextNormalizer.condStep cfg.remove_special_chars
      TextNormalizer.removeSpecialCharacters n3 with hn4
    set n5 := TextNormalizer.condStep cfg.remove_extra_whitespace
      TextNormalizer.removeExtraWhitespace n4 with hn5
    set n6 := TextNormalizer.condStep cfg.lowercase (List.map toLowerC) n5 with hn6
    set n7 := TextNormalizer.limitConsecutiveNewlines cfg.max_consecutive_newlines n6 with hn7
    have hkeep4 : cfg.remove_special_chars = true →
        ∀ c ∈ n4, TextNormalizer.keepC c = true := by
      intro hs c hc
      rw [hn4, condStep_pos _ _ hs, TextNormalizer.removeSpecialCharacters] at hc
      exact (List.mem_filter.mp hc).2
    have hkeep5 : cfg.remove_special_chars = true →
        ∀ c ∈ n5, TextNormalizer.keepC c = true := by
      intro hs c hc
      cases hw : cfg.remove_extra_whitespace with
      | false => rw [hn5, condStep_neg _ _ hw] at hc; exact hkeep4 hs c hc
      | true =>
        rw [hn5, condStep_pos _ _ hw] at hc
        rcases mem_removeExtraWhitespace n4 c hc with hc | hc | hc
        · exact hkeep4 hs c hc
        · rw [hc]; decide
        · rw [hc]; decide
    have hkeep6 : cfg.remove_special_chars = true →
        ∀ c ∈ n6, TextNormalizer.keepC c = true := by
      intro hs c hc
      cases hl : cfg.lowercase with
      | false => rw [hn6, condStep_neg _ _ hl] at hc; exact hkeep5 hs c hc
      | true =>
        rw [hn6, condStep_pos _ _ hl] at hc
        rcases List.mem_map.mp hc with ⟨a, ha, rfl⟩
        exact toLowerC_keep a (hkeep5 hs a ha)
    have hkeepO : cfg.remove_special_chars = true →
        ∀ c ∈ pyStrip n7, TextNormalizer.keepC c = true := by
      intro hs c hc
      exact hkeep6 hs c (mem_limitNl _ _ c (mem_pyStrip _ c hc))
    have hpairs6 : cfg.remove_extra_whitespace = true →
        pairsOK gPair n6 = true ∧ '\t' ∉ n6 := by
      intro hw
      have p5 : pairsOK gPair n5 = true ∧ '\t' ∉ n5 := by
        rw [hn5, condStep_pos _ _ hw]
        exact ⟨removeExtraWhitespace_chain n4, not_tab_removeExtraWhitespace n4⟩
      cases hl : cfg.lowercase with
      | false => rw [hn6, condStep_neg _ _ hl]; exact p5
      | true =>
        rw [hn6, condStep_pos _ _ hl]
        refine ⟨pairsOK_map_toLower _ p5.1, ?_⟩
        intro hmem
        rcases List.mem_map.mp hmem with ⟨a, ha, hla⟩
        have ha' : a = '\t' := (toLowerC_eq_iff a '\t' (by decide) (by decide)).mp hla
        exact p5.2 (ha' ▸ ha)
    have hlow6 : cfg.lowercase = true → ∀ c ∈ n6, toLowerC c = c := by
      intro hl c hc
      rw [hn6, condStep_pos _ _ hl] at hc
      rcases List.mem_map.mp hc with ⟨a, _, rfl⟩
      exact toLowerC_idem a
    have hcr6 : (cfg.normalize_line_breaks = true ∧ cfg.remove_urls = false ∧
        cfg.remove_emails = false) ∨ cfg.remove_special_chars = true →
        '\r' ∉ n6 := by
      intro hcase
      rcases hcase with ⟨hlb, hu, he⟩ | hs
      · have h1 : '\r' ∉ n1 := by
          rw [hn1, condStep_pos _ _ hlb]
          exact not_cr_normalizeLineBreaks t
        have h3 : '\r' ∉ n3 := by
          rw [hn3, condStep_neg _ _ he, hn2, condStep_neg _ _ hu]
          exact h1
        have h4 : '\r' ∉ n4 := by
          cases hs : cfg.remove_special_chars with
          | false => rw [hn4, condStep_neg _ _ hs]; exact h3
          | true =>
            rw [hn4, condStep_pos _ _ hs, TextNormalizer.removeSpecialCharacters]
            intro hm
            exact absurd (List.mem_filter.mp hm).2 (by decide)
        have h5 : '\r' ∉ n5 := by
          cases hw : cfg.remove_extra_whitespace with
          | false => rw [hn5, condStep_neg _ _ hw]; exact h4
          | true =>
            rw [hn5, condStep_pos _ _ hw]
            intro hm
            rcases mem_removeExtraWhitespace n4 '\r' hm with hm | hm | hm
            · exact h4 hm
            · exact absurd hm (by decide)
            · exact absurd hm (by decide)
        cases hl : cfg.lowercase with
        | false => rw [hn6, condStep_neg _ _ hl]; exact h5
        | true =>
          rw [hn6, condStep_pos _ _ hl]
          intro hm
          rcases List.mem_map.mp hm with ⟨a, ha, hla⟩
          have ha' : a = '\r' := (toLowerC_eq_iff a '\r' (by decide) (by decide)).mp hla
          exact h5 (ha' ▸ ha)
      · intro hm
        exact absurd (hkeep6 hs '\r' hm) (by decide)
    refine ⟨pyStrip_idem n7, ?_, hkeepO, ?_, ?_, ?_⟩
    · rw [hn7, TextNormalizer.limitConsecutiveNewlines]
      exact hasNlRun_pyStrip _ _ (hasNlRun_capNl _ _)
    · intro hw
      rcases hpairs6 hw with ⟨hp6, htab6⟩
      constructor
      · refine pairsOK_pyStrip gPair _ ?_
        rw [hn7, TextNormalizer.limitConsecutiveNewlines]
        exact pairsOK_capNl gPair _ (one_le_capFloor _) _ hp6
      · intro hmem
        exact htab6 (mem_limitNl _ _ '\t' (mem_pyStrip _ '\t' hmem))
    · intro hl c hc
      have h6 := mem_limitNl _ _ c (mem_pyStrip _ c hc)
      have hfix := hlow6 hl c h6
      exact hfix
    · intro hcase hmem
      exact hcr6 hcase (mem_limitNl _ _ '\r' (mem_pyStrip _ '\r' hmem))

/-! ### The claims -/

/-- Claim C5, amended: normalize is a fixed point of itself under every
configuration in which special-character stripping is enabled or
neither URL removal nor email removal is enabled.  (With URL removal
and lowercasing both enabled and special-character stripping disabled,
idempotence fails: the URL pattern is case-sensitive, and lowercasing
can create a fresh URL match for a second pass; see the
counterexample.) -/
theorem c5_normalize_idempotent (cfg : NormCfg)
    (hok : cfg.remove_special_chars = true ∨
      (cfg.remove_urls = false ∧ cfg.remove_emails = false))
    (t : Text) :
    TextNormalizer.normalize cfg (TextNormalizer.normalize cfg t) =
      TextNormalizer.normalize cfg t := by
  by_cases hO : TextNormalizer.normalize cfg t = []
  · rw [hO, TextNormalizer.normalize, if_pos rfl]
  · obtain ⟨hstrip, hrun, hkeep, hpairs, hlow, hcr⟩ := normalize_invariants cfg t
    set O := TextNormalizer.normalize cfg t with hOdef
    rw [TextNormalizer.normalize, if_neg hO, TextNormalizer.normalizeCore]
    have e1 : TextNormalizer.condStep cfg.normalize_line_breaks
        TextNormalizer.normalizeLineBreaks O = O := by
      cases hlb : cfg.normalize_line_breaks with
      | false => exact condStep_neg _ _ rfl
      | true =>
        rw [condStep_pos _ _ rfl]
        refine normalizeLineBreaks_id O (hcr ?_)
        rcases hok with hs | ⟨hu, he⟩
        · exact Or.inr hs
        · exact Or.inl ⟨hlb, hu, he⟩
    have e2 : TextNormalizer.condStep cfg.remove_urls TextNormalizer.removeUrls O = O := by
      cases hu : cfg.remove_urls with
      | false => exact condStep_neg _ _ rfl
      | true =>
        rw [condStep_pos _ _ rfl]
        have hs : cfg.remove_special_chars = true := by
          rcases hok with hs | ⟨hu2, _⟩
          · exact hs
          · rw [hu] at hu2; exact absurd hu2 (by simp)
        refine removeUrls_id O ?_ hstrip
        intro hm
        exact absurd (hkeep hs ':' hm) (by decide)
    have e3 : TextNormalizer.condStep cfg.remove_emails TextNormalizer.removeEmails O = O := by
      cases he : cfg.remove_emails with
      | false => exact condStep_neg _ _ rfl
      | true =>
        rw [condStep_pos _ _ rfl]
        have hs : cfg.remove_special_chars = true := by
          rcases hok with hs | ⟨_, he2⟩
          · exact hs
          · rw [he] at he2; exact absurd he2 (by simp)
        refine removeEmails_id O ?_ hstrip
        intro hm
        exact absurd (hkeep hs '@' hm) (by decide)
    have e4 : TextNormalizer.condStep cfg.remove_special_chars
        TextNormalizer.removeSpecialCharacters O = O := by
      cases hs : cfg.remove_special_chars with
      | false => exact condStep_neg _ _ rfl
      | true =>
        rw [condStep_pos _ _ rfl, TextNormalizer.removeSpecialCharacters]
        exact filter_id_of _ O (hkeep hs)
    have e5 : TextNormalizer.condStep cfg.remove_extra_whitespace
        TextNormalizer.removeExtraWhitespace O = O := by
      cases hw : cfg.remove_extra_whitespace with
      | false => exact condStep_neg _ _ rfl
      | true =>
        rw [condStep_pos _ _ rfl]
        exact removeExtraWhitespace_id O (hpairs hw).2 (hpairs hw).1
    have e6 : TextNormalizer.condStep cfg.lowercase (List.map toLowerC) O = O := by
      cases hl : cfg.lowercase with
      | false => exact condStep_neg _ _ rfl
      | true =>
        rw [condStep_pos _ _ rfl]
        exact map_id_of _ O (hlow hl)
    have e7 : TextNormalizer.limitConsecutiveNewlines cfg.max_consecutive_newlines O = O := by
      rw [TextNormalizer.limitConsecutiveNewlines]
      exact capNl_id _ O hrun
    rw [e1, e2, e3, e4, e5, e6, e7, hstrip]

theorem c5_witness :
    TextNormalizer.normalize NormalizerPresets.defaultPreset
        (TextNormalizer.normalize NormalizerPresets.defaultPreset (str " a\n\n\n b ")) =
      TextNormalizer.normalize NormalizerPresets.defaultPreset (str " a\n\n\n b ") :=
  c5_normalize_idempotent NormalizerPresets.defaultPreset (Or.inr ⟨rfl, rfl⟩)
    (str " a\n\n\n b ")

/-- Claim C5 as stated is false: with URL removal and lowercasing
enabled (special characters kept), "HTTP://x" normalizes to "http://x",
which a second pass deletes entirely. -/
theorem c5_counterexample :
    TextNormalizer.normalize cfgCE (TextNormalizer.normalize cfgCE (str "HTTP://x")) ≠
      TextNormalizer.normalize cfgCE (str "HTTP://x") := by
  decide

/-- Claim C1: on the eight-line end-to-end input, anonymize produces
text containing the NAME, EMAIL, PHONE and SOCIAL placeholders and the
word Bachelor, and none of the original PII substrings.  The external
phonenumbers matcher is modelled by found; the hypothesis states that
none of its reported raw strings occurs verbatim in the text it is
substituted into (true of the real matcher here, whose raw strings come
from a punctuation-normalized copy and so differ from the text). -/
theorem c1_end_to_end_scenario (found : List Text)
    (h : ∀ n ∈ found, containsSub n (PrivacyAwareAnonymizer.remove_emails c1Input) = false) :
    (containsSub (str "[NAME]") (PrivacyAwareAnonymizer.anonymize found c1Input) = true ∧
     containsSub (str "[EMAIL]") (PrivacyAwareAnonymizer.anonymize found c1Input) = true ∧
     containsSub (str "[PHONE]") (PrivacyAwareAnonymizer.anonymize found c1Input) = true ∧
     containsSub (str "[SOCIAL]") (PrivacyAwareAnonymizer.anonymize found c1Input) = true ∧
     containsSub (str "Bachelor") (PrivacyAwareAnonymizer.anonymize found c1Input) = true) ∧
    (containsSub (str "María López") (PrivacyAwareAnonymizer.anonymize found c1Input) = false ∧
     containsSub (str "maria.lopez@example.com") (PrivacyAwareAnonymizer.anonymize found c1Input) = false ∧
     containsSub (str "+1 (555) 123-4567") (PrivacyAwareAnonymizer.anonymize found c1Input) = false ∧
     containsSub (str "linkedin.com/in/mlopez") (PrivacyAwareAnonymizer.anonymize found c1Input) = false ∧
     containsSub (str "Universidad de Ejemplo") (PrivacyAwareAnonymizer.anonymize found c1Input) = false ∧
     containsSub (str "30") (PrivacyAwareAnonymizer.anonymize found c1Input) = false ∧
     containsSub (str "female") (PrivacyAwareAnonymizer.anonymize found c1Input) = false ∧
     containsSub (str "Married") (PrivacyAwareAnonymizer.anonymize found c1Input) = false) := by
  rw [anonymize_found_irrelevant found c1Input h, anonymize_c1_eval]
  decide

theorem c1_witness :
    (containsSub (str "[NAME]") (PrivacyAwareAnonymizer.anonymize [] c1Input) = true ∧
     containsSub (str "[EMAIL]") (PrivacyAwareAnonymizer.anonymize [] c1Input) = true ∧
     containsSub (str "[PHONE]") (PrivacyAwareAnonymizer.anonymize [] c1Input) = true ∧
     containsSub (str "[SOCIAL]") (PrivacyAwareAnonymizer.anonymize [] c1Input) = true ∧
     containsSub (str "Bachelor") (PrivacyAwareAnonymizer.anonymize [] c1Input) = true) ∧
    (containsSub (str "María López") (PrivacyAwareAnonymizer.anonymize [] c1Input) = false ∧
     containsSub (str "maria.lopez@example.com") (PrivacyAwareAnonymizer.anonymize [] c1Input) = false ∧
     containsSub (str "+1 (555) 123-4567") (PrivacyAwareAnonymizer.anonymize [] c1Input) = false ∧
     containsSub (str "linkedin.com/in/mlopez") (PrivacyAwareAnonymizer.anonymize [] c1Input) = false ∧
     containsSub (str "Universidad de Ejemplo") (PrivacyAwareAnonymizer.anonymize [] c1Input) = false ∧
     containsSub (str "30") (PrivacyAwareAnonymizer.anonymize [] c1Input) = false ∧
     containsSub (str "female") (PrivacyAwareAnonymizer.anonymize [] c1Input) = false ∧
     containsSub (str "Married") (PrivacyAwareAnonymizer.anonymize [] c1Input) = false) :=
  c1_end_to_end_scenario [] (by simp)

/-- Claim C2: the email stage runs before the name stage; the name
stage passes through untouched every line already containing an EMAIL,
PHONE, SOCIAL or URL placeholder; and anonymize on the single line
"Email: x@y.com" yields "Email: [EMAIL]", not a NAME placeholder. -/
theorem c2_email_before_names :
    (∀ (t : Text) (i : Nat) (l : Text), (splitNl t)[i]? = some l →
        PrivacyAwareAnonymizer.hasContactPlaceholder l = true →
        (splitNl (PrivacyAwareAnonymizer.remove_personal_names t))[i]? = some l) ∧
    ∀ found : List Text,
      (∀ n ∈ found, containsSub n (PrivacyAwareAnonymizer.remove_emails c2Input) = false) →
      PrivacyAwareAnonymizer.anonymize found c2Input = str "Email: [EMAIL]" := by
  constructor
  · exact PrivacyAwareAnonymizer.nameStage_skips_placeholder_lines
  · intro found h
    rw [anonymize_found_irrelevant found c2Input h]
    decide

theorem c2_witness :
    (splitNl (PrivacyAwareAnonymizer.remove_personal_names (str "x\n[EMAIL] y")))[1]? =
        some (str "[EMAIL] y") ∧
    PrivacyAwareAnonymizer.anonymize [] c2Input = str "Email: [EMAIL]" :=
  ⟨c2_email_before_names.1 (str "x\n[EMAIL] y") 1 (str "[EMAIL] y") (by decide) (by decide),
   c2_email_before_names.2 [] (by simp)⟩

/-- Claim C3: a line on which the technical-keyword guard fires is
passed through the fallback phone pass unchanged; in particular the
whole phone stage leaves "AWS EC2 micro version 2.0.1" unchanged. -/
theorem c3_phone_guard :
    (∀ l : Text, searchM PrivacyAwareAnonymizer.guardTry l = true →
        PrivacyAwareAnonymizer.phoneFallbackLine l = l) ∧
    PrivacyAwareAnonymizer.remove_phone_numbers [] c3Line = c3Line := by
  constructor
  · intro l h
    rw [PrivacyAwareAnonymizer.phoneFallbackLine, if_pos h]
  · decide

theorem c3_witness : PrivacyAwareAnonymizer.phoneFallbackLine c3Line = c3Line :=
  c3_phone_guard.1 c3Line (by decide)

set_option maxRecDepth 200000 in
/-- Claim C4 fails on the code: on both education inputs the
personal-name heuristic afterwards replaces the whole (single, short)
line by the NAME placeholder, so the full pipeline's output contains
neither Bachelor nor the EDUCATION placeholder. -/
theorem c4_counterexample :
    containsSub (str "Bachelor") (PrivacyAwareAnonymizer.anonymize [] c4InputA) = false ∧
    PrivacyAwareAnonymizer.anonymize [] c4InputB ≠ str "[EDUCATION]" := by
  decide

set_option maxRecDepth 200000 in
/-- Claim C4 amended: the education stage itself (as exercised by the
repository's own unit test) preserves Bachelor, drops the institution
name, and maps "Instituto de Ejemplo" to exactly the EDUCATION
placeholder; the full anonymize pipeline then replaces these first-line
results with the NAME placeholder. -/
theorem c4_education_stage :
    containsSub (str "Bachelor") (PrivacyAwareAnonymizer.anonymize_education c4InputA) = true ∧
    containsSub (str "University of Example")
      (PrivacyAwareAnonymizer.anonymize_education c4InputA) = false ∧
    PrivacyAwareAnonymizer.anonymize_education c4InputB = str "[EDUCATION]" ∧
    PrivacyAwareAnonymizer.anonymize [] c4InputA = str "[NAME]" ∧
    PrivacyAwareAnonymizer.anonymize [] c4InputB = str "[NAME]" := by
  decide

/-- Claim C6: empty input yields the empty string from anonymize and
normalize (under every configuration and matcher output), and the
all-zero record from process; none of the three can fail. -/
theorem c6_empty_input :
    ∀ (found : List Text) (cfg : NormCfg),
      PrivacyAwareAnonymizer.anonymize found [] = [] ∧
      TextNormalizer.normalize cfg [] = [] ∧
      PrivacyAwareNormalizer.process found [] =
        { anonymized_text := [], original_length := 0, final_length := 0,
          pii_removed := 0 } := by
  intro found cfg
  refine ⟨?_, ?_, ?_⟩
  · rw [PrivacyAwareAnonymizer.anonymize, if_pos rfl]
  · rw [TextNormalizer.normalize, if_pos rfl]
  · rw [PrivacyAwareNormalizer.process, if_pos rfl]

/-- Claim C7: for nonempty input, process composes anonymize with the
conservative normalize configuration and reports the lengths and the
coarse PII estimate counted on the original text. -/
theorem c7_process_contract (found : List Text) (t : Text) (h : t ≠ []) :
    PrivacyAwareNormalizer.process found t =
      { anonymized_text :=
          TextNormalizer.normalize
            { remove_extra_whitespace := true, normalize_line_breaks := true,
              remove_special_chars := false, lowercase := false,
              remove_urls := false, remove_emails := false,
              max_consecutive_newlines := 2 }
            (PrivacyAwareAnonymizer.anonymize found t),
        original_length := t.length,
        final_length :=
          (TextNormalizer.normalize
            { remove_extra_whitespace := true, normalize_line_breaks := true,
              remove_special_chars := false, lowercase := false,
              remove_urls := false, remove_emails := false,
              max_consecutive_newlines := 2 }
            (PrivacyAwareAnonymizer.anonymize found t)).length,
        pii_removed :=
          PrivacyAwareNormalizer.countOccur (str "@") t +
          countMatches PrivacyAwareNormalizer.tryPiiPhone t +
          PrivacyAwareNormalizer.countOccur (str "http") t +
          PrivacyAwareNormalizer.countOccur (str "linkedin") t } := by
  rw [PrivacyAwareNormalizer.process, if_neg h]
  rfl

theorem c7_witness :
    PrivacyAwareNormalizer.process [] (str "a@b") =
      { anonymized_text :=
          TextNormalizer.normalize
            { remove_extra_whitespace := true, normalize_line_breaks := true,
              remove_special_chars := false, lowercase := false,
              remove_urls := false, remove_emails := false,
              max_consecutive_newlines := 2 }
            (PrivacyAwareAnonymizer.anonymize [] (str "a@b")),
        original_length := (str "a@b").length,
        final_length :=
          (TextNormalizer.normalize
            { remove_extra_whitespace := true, normalize_line_breaks := true,
              remove_special_chars := false, lowercase := false,
              remove_urls := false, remove_emails := false,
              max_consecutive_newlines := 2 }
            (PrivacyAwareAnonymizer.anonymize [] (str "a@b"))).length,
        pii_removed :=
          PrivacyAwareNormalizer.countOccur (str "@") (str "a@b") +
          countMatches PrivacyAwareNormalizer.tryPiiPhone (str "a@b") +
          PrivacyAwareNormalizer.countOccur (str "http") (str "a@b") +
          PrivacyAwareNormalizer.countOccur (str "linkedin") (str "a@b") } :=
  c7_process_contract [] (str "a@b") (by decide)

set_option maxRecDepth 200000 in
/-- Claim C8: the aggressive preset turns the spec's mixed input into
exactly "hello visit email". -/
theorem c8_aggressive_preset :
    TextNormalizer.normalize NormalizerPresets.aggressive
      (str "Hello!!! Visit https://x.com.\nEMAIL: test@site.com") =
      str "hello visit email" := by
  decide

set_option maxRecDepth 200000 in
/-- Claim C9: every redaction stage with a placeholder is idempotent on
a text consisting of its own placeholder token; in particular the email
pattern never matches the EMAIL placeholder, so a second email pass
never double-redacts. -/
theorem c9_placeholder_idempotence :
    PrivacyAwareAnonymizer.remove_emails PrivacyAwareAnonymizer.phEMAIL =
      PrivacyAwareAnonymizer.phEMAIL ∧
    PrivacyAwareAnonymizer.remove_phone_numbers [] PrivacyAwareAnonymizer.phPHONE =
      PrivacyAwareAnonymizer.phPHONE ∧
    PrivacyAwareAnonymizer.remove_urls PrivacyAwareAnonymizer.phURL =
      PrivacyAwareAnonymizer.phURL ∧
    PrivacyAwareAnonymizer.remove_social_media PrivacyAwareAnonymizer.phSOCIAL =
      PrivacyAwareAnonymizer.phSOCIAL ∧
    PrivacyAwareAnonymizer.remove_id_numbers PrivacyAwareAnonymizer.phID =
      PrivacyAwareAnonymizer.phID ∧
    PrivacyAwareAnonymizer.remove_addresses (str "[ADDRESS]") = str "[ADDRESS]" ∧
    PrivacyAwareAnonymizer.remove_age_references (str "[AGE]") = str "[AGE]" ∧
    PrivacyAwareAnonymizer.anonymize_education PrivacyAwareAnonymizer.phEDUCATION =
      PrivacyAwareAnonymizer.phEDUCATION ∧
    PrivacyAwareAnonymizer.remove_personal_names PrivacyAwareAnonymizer.phNAME =
      PrivacyAwareAnonymizer.phNAME ∧
    PrivacyAwareAnonymizer.remove_emails
        (PrivacyAwareAnonymizer.remove_emails PrivacyAwareAnonymizer.phEMAIL) =
      PrivacyAwareAnonymizer.remove_emails PrivacyAwareAnonymizer.phEMAIL := by
  decide

/-- Claim C10: at the personal-name stage, a whitespace-only line among
the first three that carries no contact placeholder is replaced by the
NAME placeholder. -/
theorem c10_blank_first_lines (t : Text) (i : Nat) (l : Text)
    (hi : i < 3) (hget : (splitNl t)[i]? = some l)
    (hws : ∀ c ∈ l, isWsC c = true)
    (hph : PrivacyAwareAnonymizer.hasContactPlaceholder l = false) :
    (splitNl (PrivacyAwareAnonymizer.remove_personal_names t))[i]? =
      some PrivacyAwareAnonymizer.phNAME := by
  rw [PrivacyAwareAnonymizer.remove_personal_names_lines, mapIdxFrom_getElem?, hget]
  show some (PrivacyAwareAnonymizer.nameLine (0 + i) l) = some _
  have hsplit : splitWs l = [] := splitWs_of_all_ws l hws
  rw [PrivacyAwareAnonymizer.nameLine, if_neg (by simp [hph]),
    if_pos ⟨by omega, by rw [hsplit]; decide, by rw [hsplit]; decide⟩]

theorem c10_witness :
    (splitNl (PrivacyAwareAnonymizer.remove_personal_names (str " \nJohn Doe\nx")))[0]? =
      some PrivacyAwareAnonymizer.phNAME :=
  c10_blank_first_lines (str " \nJohn Doe\nx") 0 (str " ")
    (by decide) (by decide) (by decide) (by decide)

end TalentMap
